import Mathlib

/-!
Verification of the Demo_Handling repository's file-tree construction and
filtered-export subsystem (`src/demos/utils.py`, `src/demos/views.py`).

The Python code is shallowly embedded: paths are modelled as POSIX relative
path strings together with their segment lists, tree nodes as an inductive
mirroring the Python node dicts, and the stateful insertion loop of
`build_tree` / `build_tree_from_list` (which bubbles sizes up transient
`_parent` pointers) as a recursive function that returns the updated subtree
together with the "keep bubbling" flag of the `while _n is not None` walk:
a node's `_parent` key exists exactly on non-root directory nodes, so the
bubbling chain ascends from the final loop node through directory ancestors
and stops after the first node that is the root or a file node.
-/

/- ===================== Python string primitives ===================== -/

/-- Python `str.split('/')` on the character list: `""` yields `[""]`,
separators at the ends or adjacent separators yield empty segments. -/
def splitCharsAux (sep : Char) : List Char → List Char → List String
  | [], acc => [String.mk acc.reverse]
  | c :: cs, acc =>
    if c = sep then String.mk acc.reverse :: splitCharsAux sep cs []
    else splitCharsAux sep cs (c :: acc)

/-- Python `rel.split('/')` as used by `build_tree` and `build_tree_from_list`. -/
def pySplitSlash (s : String) : List String := splitCharsAux '/' s.data []

/-- Python `s.strip('/')`: remove all leading and trailing `'/'` characters. -/
def pyStripSlash (s : String) : String :=
  String.mk (((s.data.dropWhile (· = '/')).reverse.dropWhile (· = '/')).reverse)

/-- Python `str.lower()` restricted to ASCII letters, which is all the
repository's reserved-segment comparison (`'.svn'`) needs. -/
def pyCharLower (c : Char) : Char :=
  if 'A' ≤ c ∧ c ≤ 'Z' then Char.ofNat (c.toNat + 32) else c

/-- Python `s.lower()` (ASCII). -/
def pyLower (s : String) : String := String.mk (s.data.map pyCharLower)

/-- Lexicographic comparison of code-point lists: Python string `<=`. -/
def lexLeB : List Char → List Char → Bool
  | [], _ => true
  | _ :: _, [] => false
  | a :: as, b :: bs =>
    if a.toNat < b.toNat then true
    else if b.toNat < a.toNat then false
    else lexLeB as bs

/- ===================== fnmatch glob matching ===================== -/

/-- Python `fnmatch.translate` semantics for patterns built from literal
characters and the wildcards `*` and `?`: `*` becomes the regex `.*` and so
matches ANY character sequence, including `/` (hence `**` behaves exactly
like `*`, and `**/` demands a literal `/` in the name); `?` matches exactly
one character. Character classes `[...]` do not occur in this repository's
exclusion patterns and are not modelled; `os.path.normcase` is the POSIX
identity. The fuel argument strictly dominates the recursion depth because
every recursive call shortens the pattern or the name. -/
def globMatchF : Nat → List Char → List Char → Bool
  | 0, _, _ => false
  | _ + 1, [], s => s.isEmpty
  | fuel + 1, '*' :: ps, s =>
    globMatchF fuel ps s ||
      (match s with
       | [] => false
       | _ :: cs => globMatchF fuel ('*' :: ps) cs)
  | fuel + 1, '?' :: ps, s =>
    (match s with
     | [] => false
     | _ :: cs => globMatchF fuel ps cs)
  | fuel + 1, c :: ps, s =>
    (match s with
     | [] => false
     | c' :: cs => c == c' && globMatchF fuel ps cs)

/-- Python `fnmatch.fnmatch(name, pat)`. -/
def fnmatch (nm pat : String) : Bool :=
  globMatchF (pat.length + nm.length + 1) pat.data nm.data

/-- The glob-exclusion test shared by `iter_included_files` (line 169) and
`build_tree_from_list.excluded` (lines 364-365):
`any(fnmatch.fnmatch(rel, pattern) for pattern in exclude_globs)`. -/
def globAny (rel : String) (exclude_globs : List String) : Bool :=
  exclude_globs.any (fun pattern => fnmatch rel pattern)

/-- `DEFAULT_EXCLUDES` from `src/demos/utils.py` lines 28-31. -/
def DEFAULT_EXCLUDES : List String :=
  ["**/.svn/**", "**/.road_cache/**", "**/.settings/**",
   "**/*.tmp", "**/SimOutput/**", "**/slprj/**"]

/- ===================== PathFilter / FileEnumerator ===================== -/

/-- `_has_segment(path, segment)` from `src/demos/utils.py` lines 150-153,
on the segment list of a relative path (`path.parts`):
`seg = segment.lower()`, then any part with `part.lower() == seg`. -/
def has_segment (parts : List String) (segment : String) : Bool :=
  parts.any (fun part => pyLower part == pyLower segment)

/-- Python-side view of a demo root on disk: whether the root path exists as
a directory, and the regular files beneath it as (segment list, size) pairs.
`Path.rglob('*')` on a missing or non-directory root raises nothing and
yields nothing (pathlib swallows the scandir error), which the embedding
reflects by returning the empty list in that case. -/
structure LocalFS where
  root_is_dir : Bool
  files : List (List String × Nat)

/-- Python `Path.as_posix()` of a relative path given by its segments. -/
def joinSlash : List String → String
  | [] => ""
  | [p] => p
  | p :: q :: qs => p ++ "/" ++ joinSlash (q :: qs)

/-- `iter_included_files(root, exclude_globs)` from `src/demos/utils.py`
lines 155-171: walk all files below the root; skip any whose relative path
has a segment equal (case-insensitively) to `.svn`; then skip any whose
relative path matches one of the exclusion globs. -/
def iter_included_files (fs : LocalFS) (exclude_globs : List String) :
    List (List String × Nat) :=
  if fs.root_is_dir then
    fs.files.filter (fun e =>
      !(has_segment e.1 ".svn") && !(globAny (joinSlash e.1) exclude_globs))
  else []

/- ===================== TreeBuilder data model ===================== -/

/-- A Python tree-node dict. `children = none` models the absence of the
`'children'` key (file nodes as created); `children = some cs` models a
present `'children'` value holding the nodes in insertion order (dict order).
`childrenIsList` records whether finalize has replaced the dict value by a
Python list (`False` during construction, flipped by the finalize passes).
The transient `'_parent'` key is not a field: it is modelled by the bubbling
flag of `insertParts` below. -/
inductive PNode : Type where
  | mk (name : String) (ty : String) (relpath : Option String) (size : Nat)
       (children : Option (List PNode)) (childrenIsList : Bool)

def PNode.name : PNode → String | .mk n _ _ _ _ _ => n
def PNode.ty : PNode → String | .mk _ t _ _ _ _ => t
def PNode.relpath : PNode → Option String | .mk _ _ r _ _ _ => r
def PNode.size : PNode → Nat | .mk _ _ _ s _ _ => s
def PNode.children : PNode → Option (List PNode) | .mk _ _ _ _ c _ => c
def PNode.childrenIsList : PNode → Bool | .mk _ _ _ _ _ il => il

/-- The `'children'` dict of a node, as a list in insertion order (empty when
the key is absent). -/
def PNode.childrenL (n : PNode) : List PNode := n.children.getD []

/-- A freshly created file node (`build_tree` lines 205-210). -/
def newFile (nm rel : String) (sz : Nat) : PNode :=
  .mk nm "file" (some rel) sz none false

/-- A freshly created directory node (`build_tree` lines 219-225). -/
def newDir (nm : String) : PNode := .mk nm "dir" none 0 (some []) false

/-- The root node (`build_tree` line 196 / `build_tree_from_list` line 368;
the explicit `'_parent': None` of the latter behaves identically to the
absent key of the former under `dict.get`). -/
def rootNode : PNode := .mk "" "dir" none 0 (some []) false

/-- Dict lookup by key; keys of a `'children'` dict always coincide with the
stored node's `'name'` field. -/
def childNamed (cs : List PNode) (k : String) : Option PNode :=
  cs.find? (fun c => c.name == k)

/-- In-place update of the dict entry with the given key. -/
def replaceNamed : List PNode → String → PNode → List PNode
  | [], _, _ => []
  | c :: cs, k, c' => if c.name == k then c' :: cs else c :: replaceNamed cs k c'

/-- Overwrite the `'children'` value (also models `setdefault('children', {})`,
which materialises the key). -/
def setChildren : PNode → List PNode → PNode
  | .mk nm t rp sz _ il, cs => .mk nm t rp sz (some cs) il

/-- Add to the `'size'` value. -/
def addSize : PNode → Nat → PNode
  | .mk nm t rp sz ch il, k => .mk nm t rp (sz + k) ch il

/-- One iteration of the insertion loop of `build_tree` (lines 198-226) and
`build_tree_from_list` (lines 369-394), whose bodies are identical. The
walk descends along `parts`; at the last segment it `setdefault`s the file
node and then bubbles `size` up the `_parent` chain. The chain increments
the loop's final node unconditionally and continues upward exactly while
nodes carry a `_parent` key — that is, through non-root directory nodes —
so the returned flag tells the caller (the parent) whether the bubbling
reaches and passes it: it is `true` iff this node is a directory (the root's
flag is ignored at top level; a file node reached by the walk absorbs the
size and stops the chain). -/
def insertParts : PNode → List String → String → Nat → PNode × Bool
  | n, [], _, _ => (n, false)
  | n, [last], rel, sz =>
    (match childNamed n.childrenL last with
     | some _ => (setChildren (addSize n sz) n.childrenL, n.ty == "dir")
     | none =>
       (setChildren (addSize n sz) (n.childrenL ++ [newFile last rel sz]),
        n.ty == "dir"))
  | n, p :: q :: rest, rel, sz =>
    (match childNamed n.childrenL p with
     | some c =>
       let r := insertParts c (q :: rest) rel sz
       (setChildren (if r.2 then addSize n sz else n)
          (replaceNamed n.childrenL p r.1),
        r.2 && (n.ty == "dir"))
     | none =>
       let r := insertParts (newDir p) (q :: rest) rel sz
       (setChildren (if r.2 then addSize n sz else n)
          (replaceNamed (n.childrenL ++ [newDir p]) p r.1),
        r.2 && (n.ty == "dir")))

/-- The insertion loop of `build_tree` over the gathered `(rel, size)` pairs
(lines 198-226): `parts = rel.split('/')`. -/
def build_tree_fold (files : List (String × Nat)) : PNode :=
  files.foldl (fun t e => (insertParts t (pySplitSlash e.1) e.1 e.2).1) rootNode

/-- One entry of an `svn list -R --xml` flat listing. -/
structure SvnItem where
  relpath : String
  size : Nat
  is_dir : Bool

/-- `rel.split('/') if rel else []` from `build_tree_from_list` line 371. -/
def partsIfNonempty (rel : String) : List String :=
  if rel == "" then [] else pySplitSlash rel

/-- The insertion loop of `build_tree_from_list` (lines 369-394):
`rel = it['relpath'].strip('/')`. -/
def build_tree_from_list_fold (files : List SvnItem) : PNode :=
  files.foldl (fun t it =>
    (insertParts t (partsIfNonempty (pyStripSlash it.relpath))
      (pyStripSlash it.relpath) it.size).1) rootNode

/- ===================== finalize: sort & convert ===================== -/

/-- The Python sort key `(x['type'] != 'dir', x['name'].lower())` compared
with tuple `<=`: a `False` first component (directory) precedes `True`
(non-directory); ties compare the lower-cased names by code points. -/
def nodeLeB (a b : PNode) : Bool :=
  match (a.ty != "dir" : Bool), (b.ty != "dir" : Bool) with
  | false, true => true
  | true, false => false
  | _, _ => lexLeB (pyLower a.name).data (pyLower b.name).data

/-- The sort order of the finalize passes, as a relation. -/
def NodeLE (a b : PNode) : Prop := nodeLeB a b = true

instance : DecidableRel NodeLE := fun a b =>
  inferInstanceAs (Decidable (nodeLeB a b = true))

mutual
/-- `finalize` from `build_tree` (lines 229-237): recurse into children,
sort them (directories first, then case-insensitive names; `list.sort` is
stable, as is `List.insertionSort`, and a stable sort under a total
transitive preorder is functionally unique) and replace the dict by the
list — but only when `n.get('children')` is truthy (key present AND
non-empty) and still a dict. The `n.pop('_parent', None)` is a no-op in
this embedding. -/
def finalizeLocal (n : PNode) : PNode :=
  match n with
  | .mk nm t rp sz (some (c :: cs)) false =>
    .mk nm t rp sz (some (List.insertionSort NodeLE (finalizeL (c :: cs)))) true
  | _ => n
  termination_by sizeOf n
  decreasing_by
    simp only [PNode.mk.sizeOf_spec, Option.some.sizeOf_spec]; omega

/-- Recurse `finalizeLocal` into the children values. -/
def finalizeL : List PNode → List PNode
  | [] => []
  | c :: cs => finalizeLocal c :: finalizeL cs
  termination_by l => sizeOf l
  decreasing_by all_goals (simp_wf; try omega)
end

mutual
/-- `finalize` from `build_tree_from_list` (lines 396-403): same as the
local variant except the guard is `isinstance(n.get('children'), dict)`,
which also converts an EMPTY children dict into `[]`. -/
def finalizeList (n : PNode) : PNode :=
  match n with
  | .mk nm t rp sz (some cs) false =>
    .mk nm t rp sz (some (List.insertionSort NodeLE (finalizeLL cs))) true
  | _ => n
  termination_by sizeOf n
  decreasing_by
    simp only [PNode.mk.sizeOf_spec, Option.some.sizeOf_spec]; omega

/-- Recurse `finalizeList` into the children values. -/
def finalizeLL : List PNode → List PNode
  | [] => []
  | c :: cs => finalizeList c :: finalizeLL cs
  termination_by l => sizeOf l
  decreasing_by all_goals (simp_wf; try omega)
end

/-- `build_tree(root, exclude_globs)` from `src/demos/utils.py` lines
181-238: gather the included files with their root-relative POSIX paths and
sizes, run the insertion loop, then finalize. -/
def build_tree (fs : LocalFS) (exclude_globs : List String) : PNode :=
  finalizeLocal (build_tree_fold
    ((iter_included_files fs exclude_globs).map (fun e => (joinSlash e.1, e.2))))

/-- `build_tree_from_list(flat_items, exclude_globs)` from
`src/demos/utils.py` lines 361-404: drop directory entries, drop entries
matching an exclusion glob (note: NO reserved-`.svn`-segment rule here),
run the insertion loop, then finalize. -/
def build_tree_from_list (flat_items : List SvnItem) (exclude_globs : List String) :
    PNode :=
  finalizeList (build_tree_from_list_fold
    ((flat_items.filter (fun i => !i.is_dir)).filter
      (fun i => !(globAny i.relpath exclude_globs))))

/- ===================== observers used by the claims ===================== -/

/-- The node reached from `n` by following the given child names. -/
def nodeAt : PNode → List String → Option PNode
  | n, [] => some n
  | n, p :: ps =>
    match childNamed n.childrenL p with
    | some c => nodeAt c ps
    | none => none

mutual
/-- Total size of the file nodes in the subtree rooted at `n`, `n` included. -/
def subtreeFileSum (n : PNode) : Nat :=
  (if n.ty == "file" then n.size else 0) + subtreeFileSumL n.childrenL
  termination_by sizeOf n
  decreasing_by
    cases n with
    | mk nm t rp sz ch il =>
      cases ch with
      | none => simp [PNode.childrenL, PNode.children]
      | some l => simp [PNode.childrenL, PNode.children]; omega

/-- Total size of the file nodes in the subtrees of a list of nodes. -/
def subtreeFileSumL : List PNode → Nat
  | [] => 0
  | c :: cs => subtreeFileSum c + subtreeFileSumL cs
  termination_by l => sizeOf l
  decreasing_by all_goals (simp_wf; try omega)
end

/-- A property holding at every node of a tree. -/
inductive AllN (P : PNode → Prop) : PNode → Prop where
  | node {n : PNode} : P n → (∀ c ∈ n.childrenL, AllN P c) → AllN P n

/- ===================== views: download_all and detail ===================== -/

/-- Result of the `download_all` view: either the HTTP 413 response issued
before any archive bytes exist, or the streaming zip response over the
collected files. -/
inductive DownloadResult : Type where
  | sizeLimitExceeded
  | zipStream (files : List Nat)
deriving DecidableEq

/-- The accumulation loop of `download_all` (`src/demos/views.py` lines
85-94): add each file's size to the running total, append the file, and
return the 413 response as soon as the total exceeds `max_bytes`. The
setting is modelled as an integer as in Python. -/
def downloadCollect (max_bytes : Int) : Nat → List Nat → List Nat → Option (List Nat)
  | _, acc, [] => some acc
  | total, acc, s :: rest =>
    if ((total + s : Nat) : Int) > max_bytes then none
    else downloadCollect max_bytes (total + s) (acc ++ [s]) rest

/-- `download_all` outcome over the enumerated files' sizes: 413 with zero
archive chunks, or the `zip_generator` stream over the collected files. -/
def download_all (sizes : List Nat) (max_bytes : Int) : DownloadResult :=
  match downloadCollect max_bytes 0 [] sizes with
  | none => .sizeLimitExceeded
  | some files => .zipStream files

/-- A demo as the `detail` view sees it: routing slug, its root on disk and
its exclusion globs. -/
structure DemoM where
  slug : String
  fs : LocalFS
  excl : List String

/-- The `detail` view (`src/demos/views.py` lines 65-77): look the demo up
by slug — raising `Http404` (`.error 404`) when it is unknown — and
otherwise build and return the file tree. -/
def detail (demos : List DemoM) (slug : String) : Except Nat PNode :=
  match demos.find? (fun d => d.slug == slug) with
  | none => .error 404
  | some d => .ok (build_tree d.fs d.excl)

/- ===================== statement-level predicates ===================== -/

/-- Nodes created by the insertion loop are typed `"dir"` or `"file"`. -/
def WT (n : PNode) : Prop := n.ty = "dir" ∨ n.ty = "file"

/-- The mass-conservation property of one directory node: its `size` equals
the total size of the file nodes strictly beneath it. -/
def SizeOK (n : PNode) : Prop :=
  n.ty = "dir" → n.size = subtreeFileSumL n.childrenL

/-- The sort invariant of one directory node after finalize: its children
sequence is ordered by the Python sort key — every directory child precedes
every file child, and within each group names ascend case-insensitively. -/
def SortedChildren (n : PNode) : Prop :=
  n.ty = "dir" → n.childrenL.Sorted NodeLE

/-- The children value is still in dict form (as during construction). -/
def DictForm (n : PNode) : Prop := n.childrenIsList = false

/-- No found node strictly between `n` and the insertion target is a file
node: the walk of the insertion loop descends through directories only. -/
def HInter (n : PNode) (parts : List String) : Prop :=
  ∀ q m, q ≠ [] → q <+: parts → q ≠ parts → nodeAt n q = some m → m.ty = "dir"

/-- Neither path is a proper segment-prefix of the other (equal paths —
duplicate entries — are allowed). -/
def wpfPair (p q : List String) : Prop := (p <+: q → p = q) ∧ (q <+: p → q = p)

/-- Neither path is a segment-prefix of the other at all (so in particular
the paths differ). -/
def spfPair (p q : List String) : Prop := ¬ p <+: q ∧ ¬ q <+: p

/-- One insertion-loop iteration over a (segments, rel, size) triple. -/
def insTriple (t : PNode) (e : List String × String × Nat) : PNode :=
  (insertParts t e.1 e.2.1 e.2.2).1

/-- The insertion loop over pre-split triples; both tree builders are
instances of it. -/
def foldTriples (t : PNode) (es : List (List String × String × Nat)) : PNode :=
  es.foldl insTriple t

/-- Sum of the sizes of a triple list. -/
def sumSizesT (es : List (List String × String × Nat)) : Nat :=
  (es.map (fun e => e.2.2)).sum

/-- Sum of the sizes of the triples whose path passes strictly through `q`. -/
def sumThroughT (es : List (List String × String × Nat)) (q : List String) : Nat :=
  ((es.filter (fun e => q.isPrefixOf e.1 && !(q == e.1))).map (fun e => e.2.2)).sum

/-- The first triple with the given path. -/
def firstT (es : List (List String × String × Nat)) (q : List String) :
    Option (List String × String × Nat) :=
  es.find? (fun e => e.1 == q)

/- ===================== basic projection lemmas ===================== -/

@[simp] theorem setChildren_name (m : PNode) (cs : List PNode) :
    (setChildren m cs).name = m.name := by cases m; rfl

@[simp] theorem setChildren_ty (m : PNode) (cs : List PNode) :
    (setChildren m cs).ty = m.ty := by cases m; rfl

@[simp] theorem setChildren_relpath (m : PNode) (cs : List PNode) :
    (setChildren m cs).relpath = m.relpath := by cases m; rfl

@[simp] theorem setChildren_size (m : PNode) (cs : List PNode) :
    (setChildren m cs).size = m.size := by cases m; rfl

@[simp] theorem setChildren_flag (m : PNode) (cs : List PNode) :
    (setChildren m cs).childrenIsList = m.childrenIsList := by cases m; rfl

@[simp] theorem setChildren_childrenL (m : PNode) (cs : List PNode) :
    (setChildren m cs).childrenL = cs := by
  cases m; simp [setChildren, PNode.childrenL, PNode.children]

@[simp] theorem addSize_name (m : PNode) (k : Nat) :
    (addSize m k).name = m.name := by cases m; rfl

@[simp] theorem addSize_ty (m : PNode) (k : Nat) :
    (addSize m k).ty = m.ty := by cases m; rfl

@[simp] theorem addSize_relpath (m : PNode) (k : Nat) :
    (addSize m k).relpath = m.relpath := by cases m; rfl

@[simp] theorem addSize_size (m : PNode) (k : Nat) :
    (addSize m k).size = m.size + k := by cases m; rfl

@[simp] theorem addSize_flag (m : PNode) (k : Nat) :
    (addSize m k).childrenIsList = m.childrenIsList := by cases m; rfl

@[simp] theorem addSize_childrenL (m : PNode) (k : Nat) :
    (addSize m k).childrenL = m.childrenL := by
  cases m; simp [addSize, PNode.childrenL, PNode.children]

@[simp] theorem newFile_name (nm rel : String) (sz : Nat) :
    (newFile nm rel sz).name = nm := rfl

@[simp] theorem newFile_ty (nm rel : String) (sz : Nat) :
    (newFile nm rel sz).ty = "file" := rfl

@[simp] theorem newFile_size (nm rel : String) (sz : Nat) :
    (newFile nm rel sz).size = sz := rfl

@[simp] theorem newFile_childrenL (nm rel : String) (sz : Nat) :
    (newFile nm rel sz).childrenL = [] := rfl

@[simp] theorem newDir_name (nm : String) : (newDir nm).name = nm := rfl

@[simp] theorem newDir_ty (nm : String) : (newDir nm).ty = "dir" := rfl

@[simp] theorem newDir_size (nm : String) : (newDir nm).size = 0 := rfl

@[simp] theorem newDir_childrenL (nm : String) : (newDir nm).childrenL = [] := rfl

theorem subtreeFileSum_eq (n : PNode) :
    subtreeFileSum n =
      (if n.ty == "file" then n.size else 0) + subtreeFileSumL n.childrenL := by
  rw [subtreeFileSum]

@[simp] theorem subtreeFileSumL_nil : subtreeFileSumL [] = 0 := by
  rw [subtreeFileSumL]

@[simp] theorem subtreeFileSumL_cons (c : PNode) (cs : List PNode) :
    subtreeFileSumL (c :: cs) = subtreeFileSum c + subtreeFileSumL cs := by
  rw [subtreeFileSumL]

theorem subtreeFileSumL_append (xs ys : List PNode) :
    subtreeFileSumL (xs ++ ys) = subtreeFileSumL xs + subtreeFileSumL ys := by
  induction xs with
  | nil => simp
  | cons c cs ih => simp [ih]; omega

theorem subtreeFileSum_newFile (nm rel : String) (sz : Nat) :
    subtreeFileSum (newFile nm rel sz) = sz := by
  rw [subtreeFileSum_eq]; simp

theorem subtreeFileSum_newDir (nm : String) : subtreeFileSum (newDir nm) = 0 := by
  rw [subtreeFileSum_eq]; simp

/- ===================== childNamed / replaceNamed lemmas ===================== -/

@[simp] theorem childNamed_nil (k : String) : childNamed [] k = none := rfl

theorem childNamed_cons (x : PNode) (l : List PNode) (k : String) :
    childNamed (x :: l) k = if x.name == k then some x else childNamed l k := by
  simp [childNamed, List.find?]
  split <;> simp_all

theorem childNamed_append (l1 l2 : List PNode) (k : String) :
    childNamed (l1 ++ l2) k =
      match childNamed l1 k with
      | some c => some c
      | none => childNamed l2 k := by
  induction l1 with
  | nil => simp
  | cons x l ih =>
    rw [List.cons_append, childNamed_cons, childNamed_cons]
    by_cases h : (x.name == k) <;> simp [h, ih]

theorem childNamed_mem {cs : List PNode} {k : String} {c : PNode}
    (h : childNamed cs k = some c) : c ∈ cs := by
  exact List.mem_of_find?_eq_some h

theorem childNamed_name {cs : List PNode} {k : String} {c : PNode}
    (h : childNamed cs k = some c) : c.name = k := by
  have := List.find?_some h
  simpa using this

theorem childNamed_none_forall {cs : List PNode} {k : String}
    (h : childNamed cs k = none) : ∀ x ∈ cs, x.name ≠ k := by
  intro x hx
  have := List.find?_eq_none.mp h x hx
  simpa using this

/-- A successful dict lookup decomposes the entry list at the first match. -/
theorem childNamed_decomp {cs : List PNode} {k : String} {c : PNode}
    (h : childNamed cs k = some c) :
    ∃ l1 l2, cs = l1 ++ c :: l2 ∧ (∀ x ∈ l1, x.name ≠ k) ∧ c.name = k := by
  induction cs with
  | nil => simp [childNamed] at h
  | cons x l ih =>
    rw [childNamed_cons] at h
    by_cases hx : (x.name == k)
    · simp [hx] at h
      exact ⟨[], l, by simp [h], by simp, by subst h; exact (by simpa using hx)⟩
    · simp [hx] at h
      obtain ⟨l1, l2, rfl, h1, h2⟩ := ih h
      exact ⟨x :: l1, l2, by simp, by
        intro y hy
        rcases List.mem_cons.mp hy with rfl | hy
        · simpa using hx
        · exact h1 y hy, h2⟩

theorem replaceNamed_of_decomp {l1 l2 : List PNode} {c : PNode} {k : String}
    (h1 : ∀ x ∈ l1, x.name ≠ k) (h2 : c.name = k) (c' : PNode) :
    replaceNamed (l1 ++ c :: l2) k c' = l1 ++ c' :: l2 := by
  induction l1 with
  | nil => simp [replaceNamed, h2]
  | cons x l ih =>
    have hx : x.name ≠ k := h1 x (by simp)
    simp only [List.cons_append, replaceNamed]
    rw [if_neg (by simpa using hx)]
    simp [ih (fun y hy => h1 y (by simp [hy]))]

theorem mem_replaceNamed {cs : List PNode} {k : String} {c' x : PNode}
    (h : x ∈ replaceNamed cs k c') : x = c' ∨ x ∈ cs := by
  induction cs with
  | nil => simp [replaceNamed] at h
  | cons y l ih =>
    simp only [replaceNamed] at h
    split at h
    · rcases List.mem_cons.mp h with rfl | h
      · exact Or.inl rfl
      · exact Or.inr (by simp [h])
    · rcases List.mem_cons.mp h with rfl | h
      · exact Or.inr (by simp)
      · rcases ih h with h | h
        · exact Or.inl h
        · exact Or.inr (by simp [h])

/- ===================== nodeAt lemmas ===================== -/

@[simp] theorem nodeAt_nil (n : PNode) : nodeAt n [] = some n := rfl

theorem nodeAt_cons (n : PNode) (p : String) (ps : List String) :
    nodeAt n (p :: ps) =
      match childNamed n.childrenL p with
      | some c => nodeAt c ps
      | none => none := rfl

theorem nodeAt_cons_some {n c : PNode} {p : String}
    (h : childNamed n.childrenL p = some c) (ps : List String) :
    nodeAt n (p :: ps) = nodeAt c ps := by
  rw [nodeAt_cons, h]

theorem nodeAt_cons_none {n : PNode} {p : String}
    (h : childNamed n.childrenL p = none) (ps : List String) :
    nodeAt n (p :: ps) = none := by
  rw [nodeAt_cons, h]

/-- A node reached along `q1 ++ q2` passes through a node at `q1`. -/
theorem nodeAt_append_isSome {n m : PNode} {q1 q2 : List String}
    (h : nodeAt n (q1 ++ q2) = some m) : ∃ m1, nodeAt n q1 = some m1 := by
  induction q1 generalizing n with
  | nil => exact ⟨n, rfl⟩
  | cons p ps ih =>
    rw [List.cons_append, nodeAt_cons] at h
    rw [nodeAt_cons]
    cases hc : childNamed n.childrenL p with
    | none => rw [hc] at h; exact absurd h (by simp)
    | some c => rw [hc] at h; exact ih h

/- ===================== sort order: totality and transitivity ===================== -/

theorem lexLeB_total : ∀ a b, lexLeB a b = true ∨ lexLeB b a = true := by
  intro a
  induction a with
  | nil => intro b; left; rfl
  | cons x xs ih =>
    intro b
    cases b with
    | nil => right; rfl
    | cons y ys =>
      by_cases h1 : x.toNat < y.toNat
      · left; simp [lexLeB, h1]
      · by_cases h2 : y.toNat < x.toNat
        · right; simp [lexLeB, h1, h2]
        · rcases ih ys with h | h <;> [left; right] <;> simp [lexLeB, h1, h2, h]

theorem lexLeB_trans :
    ∀ a b c, lexLeB a b = true → lexLeB b c = true → lexLeB a c = true := by
  intro a
  induction a with
  | nil => intros; rfl
  | cons x xs ih =>
    intro b c hab hbc
    cases b with
    | nil => simp [lexLeB] at hab
    | cons y ys =>
      cases c with
      | nil => simp [lexLeB] at hbc
      | cons z zs =>
        by_cases h1 : x.toNat < y.toNat <;> by_cases h2 : y.toNat < z.toNat
        · simp [lexLeB, show x.toNat < z.toNat by omega]
        · by_cases h2' : z.toNat < y.toNat
          · simp [lexLeB, h2, h2'] at hbc
          · simp [lexLeB, show x.toNat < z.toNat by omega]
        · by_cases h1' : y.toNat < x.toNat
          · simp [lexLeB, h1, h1'] at hab
          · simp [lexLeB, show x.toNat < z.toNat by omega]
        · by_cases h1' : y.toNat < x.toNat
          · simp [lexLeB, h1, h1'] at hab
          · by_cases h2' : z.toNat < y.toNat
            · simp [lexLeB, h2, h2'] at hbc
            · simp [lexLeB, h1, h1'] at hab
              simp [lexLeB, h2, h2'] at hbc
              simp [lexLeB, show ¬x.toNat < z.toNat by omega,
                    show ¬z.toNat < x.toNat by omega]
              exact ih ys zs hab hbc

theorem nodeLeB_total (a b : PNode) : nodeLeB a b = true ∨ nodeLeB b a = true := by
  unfold nodeLeB
  cases ha : (a.ty != "dir" : Bool) <;> cases hb : (b.ty != "dir" : Bool) <;>
    simp <;> exact lexLeB_total _ _

theorem nodeLeB_trans (a b c : PNode) (hab : nodeLeB a b = true)
    (hbc : nodeLeB b c = true) : nodeLeB a c = true := by
  unfold nodeLeB at hab hbc ⊢
  cases ha : (a.ty != "dir" : Bool) <;> cases hb : (b.ty != "dir" : Bool) <;>
    cases hc : (c.ty != "dir" : Bool) <;> simp_all <;>
    exact lexLeB_trans _ _ _ hab hbc

instance : IsTotal PNode NodeLE := ⟨fun a b => nodeLeB_total a b⟩

instance : IsTrans PNode NodeLE := ⟨fun a b c => nodeLeB_trans a b c⟩

/- ===================== tree induction and AllN ===================== -/

theorem sizeOf_lt_of_mem_childrenL {c n : PNode} (h : c ∈ n.childrenL) :
    sizeOf c < sizeOf n := by
  cases n with
  | mk nm t rp sz ch il =>
    cases ch with
    | none => simp [PNode.childrenL, PNode.children] at h
    | some l =>
      simp only [PNode.childrenL, PNode.children, Option.getD] at h
      have h1 : sizeOf c < sizeOf l := List.sizeOf_lt_of_mem h
      simp only [PNode.mk.sizeOf_spec, Option.some.sizeOf_spec]
      omega

/-- Structural induction over a tree through its children lists. -/
theorem PNode.inductionOn (P : PNode → Prop)
    (h : ∀ n, (∀ c ∈ n.childrenL, P c) → P n) : ∀ n, P n :=
  fun n => h n (fun c hc => PNode.inductionOn P h c)
termination_by n => sizeOf n
decreasing_by exact sizeOf_lt_of_mem_childrenL hc

theorem AllN.self {P : PNode → Prop} {n : PNode} (h : AllN P n) : P n := by
  cases h with | node h1 _ => exact h1

theorem AllN.child {P : PNode → Prop} {n c : PNode} (h : AllN P n)
    (hc : c ∈ n.childrenL) : AllN P c := by
  cases h with | node _ h2 => exact h2 c hc

/-- A property holds at every node found below `n`. -/
theorem AllN.nodeAt {P : PNode → Prop} {n m : PNode} {q : List String}
    (h : AllN P n) (hm : nodeAt n q = some m) : P m := by
  induction q generalizing n with
  | nil => simp at hm; subst hm; exact h.self
  | cons p ps ih =>
    rw [nodeAt_cons] at hm
    cases hc : childNamed n.childrenL p with
    | none => rw [hc] at hm; simp at hm
    | some c =>
      rw [hc] at hm
      exact ih (h.child (childNamed_mem hc)) hm

/- ===================== finalize structure lemmas ===================== -/

theorem finalizeLocal_eq_conv (nm t : String) (rp : Option String) (sz : Nat)
    (c : PNode) (cs : List PNode) :
    finalizeLocal (.mk nm t rp sz (some (c :: cs)) false) =
      .mk nm t rp sz (some (List.insertionSort NodeLE (finalizeL (c :: cs)))) true := by
  rw [finalizeLocal]

theorem finalizeLocal_eq_skip (n : PNode)
    (h : ∀ c cs, n.children = some (c :: cs) → n.childrenIsList = true) :
    finalizeLocal n = n := by
  cases n with
  | mk nm t rp sz ch il =>
    rw [finalizeLocal]
    cases ch with
    | none => cases il <;> first | rfl | (intros; simp_all)
    | some l =>
      cases l with
      | nil => cases il <;> first | rfl | (intros; simp_all)
      | cons c cs =>
        cases il with
        | true => first | rfl | (intros; simp_all)
        | false =>
          have := h c cs (by simp [PNode.children])
          simp [PNode.childrenIsList] at this

theorem finalizeL_eq_map : ∀ cs : List PNode, finalizeL cs = cs.map finalizeLocal := by
  intro cs
  induction cs with
  | nil => rw [finalizeL]; rfl
  | cons c l ih => rw [finalizeL, ih]; rfl

theorem finalizeList_eq_conv (nm t : String) (rp : Option String) (sz : Nat)
    (cs : List PNode) :
    finalizeList (.mk nm t rp sz (some cs) false) =
      .mk nm t rp sz (some (List.insertionSort NodeLE (finalizeLL cs))) true := by
  rw [finalizeList]

theorem finalizeList_eq_skip (n : PNode)
    (h : ∀ cs, n.children = some cs → n.childrenIsList = true) :
    finalizeList n = n := by
  cases n with
  | mk nm t rp sz ch il =>
    rw [finalizeList]
    cases ch with
    | none => cases il <;> first | rfl | (intros; simp_all)
    | some l =>
      cases il with
      | true => first | rfl | (intros; simp_all)
      | false =>
        have := h l (by simp [PNode.children])
        simp [PNode.childrenIsList] at this

theorem finalizeLL_eq_map : ∀ cs : List PNode, finalizeLL cs = cs.map finalizeList := by
  intro cs
  induction cs with
  | nil => rw [finalizeLL]; rfl
  | cons c l ih => rw [finalizeLL, ih]; rfl

theorem finalizeLocal_size (n : PNode) : (finalizeLocal n).size = n.size := by
  cases n with
  | mk nm t rp sz ch il =>
    cases ch with
    | none => rw [finalizeLocal_eq_skip _ (by simp [PNode.children])]
    | some l =>
      cases l with
      | nil => rw [finalizeLocal_eq_skip _ (by simp [PNode.children])]
      | cons c cs =>
        cases il with
        | false => rw [finalizeLocal_eq_conv]; rfl
        | true => rw [finalizeLocal_eq_skip _ (by simp [PNode.childrenIsList])]

theorem finalizeList_size (n : PNode) : (finalizeList n).size = n.size := by
  cases n with
  | mk nm t rp sz ch il =>
    cases ch with
    | none => rw [finalizeList_eq_skip _ (by simp [PNode.children])]
    | some l =>
      cases il with
      | false => rw [finalizeList_eq_conv]; rfl
      | true => rw [finalizeList_eq_skip _ (by simp [PNode.childrenIsList])]

/- ===================== download_all loop lemmas ===================== -/

theorem downloadCollect_ok (max_bytes : Int) :
    ∀ (l : List Nat) (total : Nat) (acc : List Nat),
      ((total + l.sum : Nat) : Int) ≤ max_bytes →
      downloadCollect max_bytes total acc l = some (acc ++ l) := by
  intro l
  induction l with
  | nil => intro total acc _; simp [downloadCollect]
  | cons s rest ih =>
    intro total acc h
    rw [downloadCollect]
    simp only [List.sum_cons, Nat.cast_add] at h
    rw [if_neg (by simp only [Nat.cast_add]; omega)]
    rw [ih (total + s) (acc ++ [s]) (by simp only [Nat.cast_add]; omega)]
    simp

theorem downloadCollect_fail (max_bytes : Int) :
    ∀ (l : List Nat) (total : Nat) (acc : List Nat), l ≠ [] →
      ((total + l.sum : Nat) : Int) > max_bytes →
      downloadCollect max_bytes total acc l = none := by
  intro l
  induction l with
  | nil => intro _ _ h _; exact absurd rfl h
  | cons s rest ih =>
    intro total acc _ h
    rw [downloadCollect]
    simp only [List.sum_cons, Nat.cast_add] at h
    by_cases hc : ((total + s : Nat) : Int) > max_bytes
    · rw [if_pos hc]
    · rw [if_neg hc]
      simp only [Nat.cast_add] at hc
      cases rest with
      | nil => exfalso; simp only [List.sum_nil, Nat.cast_zero] at h; omega
      | cons s2 r2 =>
        refine ih (total + s) (acc ++ [s]) (by simp) ?_
        simp only [List.sum_cons, Nat.cast_add] at h ⊢
        omega

/- ===================== C2 ===================== -/

/-- C2 counterexample: the claim asserts that under the filter's glob
matching the exclusion pattern `**/*.tmp` matches the top-level path
`"run.tmp"`. It does not: `fnmatch.translate` turns `**/` into `.*.*/`,
which demands a literal `/` in the name, and `"run.tmp"` has none — so the
pattern neither matches nor excludes `"run.tmp"`. (It does match
`"logs/run.tmp"` and does not match `"run.tmp.bak"`, as the claim says.) -/
theorem glob_doublestar_counterexample :
    fnmatch "run.tmp" "**/*.tmp" = false ∧
    globAny "run.tmp" ["**/*.tmp"] = false ∧
    fnmatch "logs/run.tmp" "**/*.tmp" = true ∧
    fnmatch "run.tmp.bak" "**/*.tmp" = false := by decide

/-- C2 amended: under the filter's glob matching (Python `fnmatch`, where
`*` already crosses `/` and `**/` requires a literal separator), the
exclusion pattern `**/*.tmp` matches (and therefore excludes)
`"logs/run.tmp"`, does NOT match the top-level `"run.tmp"`, and does not
match `"run.tmp.bak"`. -/
theorem glob_doublestar_matching :
    globAny "logs/run.tmp" ["**/*.tmp"] = true ∧
    globAny "run.tmp" ["**/*.tmp"] = false ∧
    globAny "run.tmp.bak" ["**/*.tmp"] = false := by decide

/- ===================== C6 ===================== -/

/-- C6 counterexample: the claim quantifies over EVERY enumerated file set,
but for the empty enumeration (`S = 0`, so `max_bytes = S - 1 = -1`) the
budget check sits inside the `for` loop of `download_all` and never runs:
instead of failing with the claimed HTTP-413 `SizeLimitExceeded`, the view
streams an (empty) archive. -/
theorem download_all_empty_budget_counterexample :
    download_all [] ((([] : List Nat).sum : Int) - 1) =
      DownloadResult.zipStream [] := by decide

/-- C6 amended: for every enumerated file set that is non-empty or has
declared sizes summing to `S ≥ 1` (so that the `S - 1` budget is an actual
byte count the in-loop check can compare against), `download_all` with
`max_bytes = S - 1` returns the HTTP-413 `SizeLimitExceeded` response —
issued before the zip generator exists, so zero archive chunks are
produced — and with `max_bytes = S` it succeeds and returns the archive
stream over exactly those files. For the empty enumeration the loop body
never executes and the code streams an empty archive even though
`0 > -1`. -/
theorem download_all_budget_boundary (sizes : List Nat)
    (h : sizes ≠ [] ∨ 1 ≤ sizes.sum) :
    download_all sizes ((sizes.sum : Int) - 1) = DownloadResult.sizeLimitExceeded ∧
    download_all sizes (sizes.sum : Int) = DownloadResult.zipStream sizes := by
  have hne : sizes ≠ [] := by
    rcases h with h | h
    · exact h
    · intro he; subst he; simp at h
  constructor
  · unfold download_all
    rw [downloadCollect_fail _ _ 0 [] hne (by push_cast; omega)]
  · unfold download_all
    rw [downloadCollect_ok _ _ 0 [] (by push_cast; omega)]
    simp

/-- Witness for C6 at the concrete file set `[3, 4]` (`S = 7`). -/
theorem download_all_budget_boundary_witness :
    download_all [3, 4] ((([3, 4] : List Nat).sum : Int) - 1) =
      DownloadResult.sizeLimitExceeded ∧
    download_all [3, 4] ((([3, 4] : List Nat).sum : Int)) =
      DownloadResult.zipStream [3, 4] :=
  download_all_budget_boundary [3, 4] (Or.inl (by decide))

/- ===================== C7 ===================== -/

/-- C7 counterexample: a demo whose root path is not an existing directory
does NOT make the `detail` view fail with NotFound — `rglob` on such a root
silently yields nothing, so enumeration returns the empty sequence and the
view answers 200 with an empty tree. -/
theorem missing_root_detail_counterexample :
    (detail [⟨"x", ⟨false, [(["a"], 5)]⟩, []⟩] "x").toOption.isSome = true ∧
    iter_included_files ⟨false, [(["a"], 5)]⟩ [] = [] := by
  constructor
  · rfl
  · rfl

/-- C7 amended: the `detail` view fails with NotFound (`Http404`, modelled
as `.error 404`) exactly when the demo SLUG is unknown; a root path that
does not exist or is not a directory instead makes `iter_included_files`
silently yield the empty file sequence (pathlib's `rglob` swallows the
error), and the view succeeds with an empty tree. -/
theorem notfound_slug_and_silent_root :
    (∀ (demos : List DemoM) (slug : String),
       demos.find? (fun d => d.slug == slug) = none →
       detail demos slug = Except.error 404) ∧
    (∀ (fs : LocalFS) (exclude_globs : List String),
       fs.root_is_dir = false → iter_included_files fs exclude_globs = []) := by
  constructor
  · intro demos slug h
    unfold detail
    rw [h]
  · intro fs exclude_globs h
    unfold iter_included_files
    rw [if_neg (by simp [h])]

/-- Witness for C7 at concrete inputs. -/
theorem notfound_slug_and_silent_root_witness :
    detail [] "nope" = Except.error 404 ∧
    iter_included_files ⟨false, [(["a"], 5)]⟩ ["*"] = [] := by
  constructor
  · exact notfound_slug_and_silent_root.1 [] "nope" (by rfl)
  · exact notfound_slug_and_silent_root.2 ⟨false, [(["a"], 5)]⟩ ["*"] (by rfl)

/- ===================== C8 ===================== -/

/-- C8 counterexample: on an empty entry list the two variants do NOT both
return a root whose children value is the empty list `[]`. The finalize of
`build_tree` converts a children dict to a list only when the dict is
non-empty (`if n.get('children') and isinstance(...)`), so the local
variant's root keeps the empty DICT `{}` (`childrenIsList = false`), while
`build_tree_from_list`'s finalize (`isinstance(n.get('children'), dict)`)
does convert it to `[]` (`childrenIsList = true`). -/
theorem empty_tree_children_repr_counterexample :
    (build_tree ⟨true, []⟩ []).childrenIsList = false ∧
    (build_tree_from_list [] []).childrenIsList = true := by
  constructor
  · show (finalizeLocal rootNode).childrenIsList = false
    rw [finalizeLocal_eq_skip rootNode
      (by intro c cs hc; simp [rootNode, PNode.children] at hc)]
    rfl
  · show (finalizeList rootNode).childrenIsList = true
    rw [show rootNode = PNode.mk "" "dir" none 0 (some []) false from rfl,
      finalizeList_eq_conv]
    rfl

/-- C8 amended: on an empty entry list both variants return a root Directory
node with zero children and `total_size = 0`; the remote-listing variant's
root carries the empty children LIST `[]`, while the local variant's root
still carries its empty children dict `{}` (finalize skips empty dicts). -/
theorem empty_tree_roots (exclude_globs1 exclude_globs2 : List String) :
    build_tree ⟨true, []⟩ exclude_globs1 = PNode.mk "" "dir" none 0 (some []) false ∧
    build_tree_from_list [] exclude_globs2 = PNode.mk "" "dir" none 0 (some []) true := by
  constructor
  · show finalizeLocal rootNode = _
    rw [finalizeLocal_eq_skip rootNode
      (by intro c cs hc; simp [rootNode, PNode.children] at hc)]
    rfl
  · show finalizeList rootNode = _
    rw [show rootNode = PNode.mk "" "dir" none 0 (some []) false from rfl,
      finalizeList_eq_conv]
    rw [finalizeLL_eq_map]
    rfl

/- ===================== C1 ===================== -/

/-- C1 counterexample: the remote-listing variant `build_tree_from_list`
has NO reserved-`.svn`-segment rule — the path `".svn/entries"` is NOT
excluded there, neither with an empty glob list nor even with the deployed
`DEFAULT_EXCLUDES` (whose `**/.svn/**` pattern requires a `/` before
`.svn` under `fnmatch`, so it misses a top-level `.svn` directory): the
file's 3 bytes reach the tree in both cases, contradicting the claim that
the reserved-directory exclusion is unconditional in both variants. -/
theorem svn_not_excluded_from_list_counterexample :
    (build_tree_from_list [⟨".svn/entries", 3, false⟩] []).size = 3 ∧
    (build_tree_from_list [⟨".svn/entries", 3, false⟩] DEFAULT_EXCLUDES).size = 3 := by
  constructor
  · unfold build_tree_from_list
    rw [finalizeList_size]
    decide
  · unfold build_tree_from_list
    rw [finalizeList_size]
    decide

/-- C1 amended: in the local enumeration variant `iter_included_files`, a
relative path with a segment case-insensitively equal to the reserved
control-directory name `.svn` is excluded regardless of the glob rules;
`build_tree_from_list` has no such unconditional rule (it applies only the
glob patterns). -/
theorem svn_always_excluded_locally (fs : LocalFS) (exclude_globs : List String)
    (e : List String × Nat) (h : has_segment e.1 ".svn" = true) :
    e ∉ iter_included_files fs exclude_globs := by
  intro hmem
  unfold iter_included_files at hmem
  by_cases hr : fs.root_is_dir = true
  · rw [if_pos (by simp [hr])] at hmem
    have := (List.mem_filter.mp hmem).2
    simp [h] at this
  · rw [if_neg (by simp [Bool.not_eq_true] at hr; simp [hr])] at hmem
    simp at hmem

/-- Witness for C1 at a concrete mixed-case `.SVN` path. -/
theorem svn_always_excluded_locally_witness :
    ([".SVN", "data.txt"], 7) ∉
      iter_included_files ⟨true, [([".SVN", "data.txt"], 7)]⟩ [] :=
  svn_always_excluded_locally _ _ _ (by decide)

/- ===================== insertion-step helper lemmas ===================== -/

theorem childNamed_none_of_forall {cs : List PNode} {k : String}
    (h : ∀ x ∈ cs, x.name ≠ k) : childNamed cs k = none := by
  apply List.find?_eq_none.mpr
  intro x hx
  simpa using h x hx

theorem childNamed_hit {l1 l2 : List PNode} {k : String} {x : PNode}
    (hl1 : ∀ y ∈ l1, y.name ≠ k) (hx : x.name = k) :
    childNamed (l1 ++ x :: l2) k = some x := by
  rw [childNamed_append, childNamed_none_of_forall hl1, childNamed_cons,
    if_pos (by simp [hx])]

theorem childNamed_middle_ne {l1 l2 : List PNode} {x y : PNode} {a : String}
    (hx : x.name ≠ a) (hy : y.name ≠ a) :
    childNamed (l1 ++ x :: l2) a = childNamed (l1 ++ y :: l2) a := by
  rw [childNamed_append, childNamed_append, childNamed_cons, childNamed_cons,
    if_neg (by simp [hx]), if_neg (by simp [hy])]

theorem prefix_singleton {α : Type} {p : List α} {x : α} (h : p <+: [x]) :
    p = [] ∨ p = [x] := by
  rcases h with ⟨t, ht⟩
  cases p with
  | nil => exact Or.inl rfl
  | cons a as =>
    simp only [List.cons_append, List.cons.injEq] at ht
    obtain ⟨rfl, h2⟩ := ht
    have := List.append_eq_nil.mp h2
    exact Or.inr (by simp [this.1])

theorem getLastD_irrel {α : Type} (a : α) (l : List α) (d1 d2 : α) :
    (a :: l).getLastD d1 = (a :: l).getLastD d2 := by
  rw [List.getLastD_cons, List.getLastD_cons]

theorem AllN_newFile {P : PNode → Prop} {nm rel : String} {sz : Nat}
    (h : P (newFile nm rel sz)) : AllN P (newFile nm rel sz) :=
  AllN.node h (by intro c hc; simp at hc)

theorem AllN_newDir {P : PNode → Prop} {nm : String} (h : P (newDir nm)) :
    AllN P (newDir nm) :=
  AllN.node h (by intro c hc; simp at hc)

/-- The insertion loop preserves any per-node property closed under the
node constructions and mutations it performs. -/
theorem insertParts_AllN (P : PNode → Prop)
    (hFile : ∀ nm rel sz, P (newFile nm rel sz))
    (hDir : ∀ nm, P (newDir nm))
    (hSet : ∀ m cs, P m → P (setChildren m cs))
    (hAdd : ∀ m k, P m → P (addSize m k)) :
    ∀ (parts : List String) (n : PNode) (rel : String) (sz : Nat),
      AllN P n → AllN P (insertParts n parts rel sz).1 := by
  intro parts
  induction parts with
  | nil =>
    intro n rel sz h
    rw [insertParts]
    exact h
  | cons p tail ih =>
    intro n rel sz h
    cases tail with
    | nil =>
      rw [insertParts]
      cases hc : childNamed n.childrenL p with
      | some c =>
        simp only
        refine AllN.node (hSet _ _ (hAdd _ _ h.self)) ?_
        intro x hx
        rw [setChildren_childrenL] at hx
        exact h.child hx
      | none =>
        simp only
        refine AllN.node (hSet _ _ (hAdd _ _ h.self)) ?_
        intro x hx
        rw [setChildren_childrenL] at hx
        rcases List.mem_append.mp hx with hx | hx
        · exact h.child hx
        · rw [List.mem_singleton] at hx
          subst hx
          exact AllN_newFile (hFile _ _ _)
    | cons q rest =>
      rw [insertParts]
      cases hc : childNamed n.childrenL p with
      | some c =>
        simp only
        have hrec := ih c rel sz (h.child (childNamed_mem hc))
        refine AllN.node ?_ ?_
        · cases (insertParts c (q :: rest) rel sz).2 with
          | true => exact hSet _ _ (hAdd _ _ h.self)
          | false => exact hSet _ _ h.self
        · intro x hx
          rw [setChildren_childrenL] at hx
          rcases mem_replaceNamed hx with rfl | hx
          · exact hrec
          · exact h.child hx
      | none =>
        simp only
        have hrec := ih (newDir p) rel sz (AllN_newDir (hDir p))
        refine AllN.node ?_ ?_
        · cases (insertParts (newDir p) (q :: rest) rel sz).2 with
          | true => exact hSet _ _ (hAdd _ _ h.self)
          | false => exact hSet _ _ h.self
        · intro x hx
          rw [setChildren_childrenL] at hx
          rcases mem_replaceNamed hx with rfl | hx
          · exact hrec
          · rcases List.mem_append.mp hx with hx | hx
            · exact h.child hx
            · rw [List.mem_singleton] at hx
              subst hx
              exact AllN_newDir (hDir p)

/-- Master description of one insertion-loop iteration for a non-empty path
whose strict ancestors in the tree are all directories: the node keeps its
identity fields; the bubbling flag reports whether this node is a directory;
the node's size grows by the entry's size; nodes off the path are untouched;
every strict non-empty path-ancestor becomes/remains a directory whose size
grows by the entry's size; and the node at the full path is the existing one
(kept untouched by `setdefault`) or a fresh file node. -/
theorem insertParts_main (rel : String) (sz : Nat) :
    ∀ (parts : List String) (n : PNode), parts ≠ [] → HInter n parts →
      ((insertParts n parts rel sz).1.name = n.name ∧
       (insertParts n parts rel sz).1.ty = n.ty ∧
       (insertParts n parts rel sz).1.relpath = n.relpath ∧
       (insertParts n parts rel sz).1.childrenIsList = n.childrenIsList) ∧
      ((insertParts n parts rel sz).2 = (n.ty == "dir")) ∧
      ((insertParts n parts rel sz).1.size = n.size + sz) ∧
      (∀ q, ¬ q <+: parts → nodeAt (insertParts n parts rel sz).1 q = nodeAt n q) ∧
      (∀ q, q ≠ [] → q <+: parts → q ≠ parts →
        ∃ m', nodeAt (insertParts n parts rel sz).1 q = some m' ∧ m'.ty = "dir" ∧
          m'.size = ((nodeAt n q).elim 0 PNode.size) + sz) ∧
      (nodeAt (insertParts n parts rel sz).1 parts =
        some ((nodeAt n parts).getD (newFile (parts.getLastD "") rel sz))) := by
  intro parts
  induction parts with
  | nil => intro n h _; exact absurd rfl h
  | cons p tail ih =>
    intro n _ hInter
    cases tail with
    | nil =>
      rw [insertParts]
      cases hc : childNamed n.childrenL p with
      | some c =>
        simp only
        refine ⟨⟨by simp, by simp, by simp, by simp⟩, by simp, by simp, ?_, ?_, ?_⟩
        · intro q' hq'
          cases q' with
          | nil => exact absurd List.nil_prefix hq'
          | cons a qs =>
            rw [nodeAt_cons, nodeAt_cons, setChildren_childrenL]
        · intro q' hq' hpre hne
          rcases prefix_singleton hpre with rfl | rfl
          · exact absurd rfl hq'
          · exact absurd rfl hne
        · rw [nodeAt_cons, setChildren_childrenL, hc, nodeAt_cons, hc]
          rfl
      | none =>
        simp only
        refine ⟨⟨by simp, by simp, by simp, by simp⟩, by simp, by simp, ?_, ?_, ?_⟩
        · intro q' hq'
          cases q' with
          | nil => exact absurd List.nil_prefix hq'
          | cons a qs =>
            rw [nodeAt_cons, nodeAt_cons, setChildren_childrenL, childNamed_append]
            cases hca : childNamed n.childrenL a with
            | some c2 => rfl
            | none =>
              simp only
              by_cases hap : a = p
              · subst hap
                have hqs : qs ≠ [] := by
                  intro hqs
                  subst hqs
                  exact hq' (List.prefix_refl _)
                rw [childNamed_cons, if_pos (by simp)]
                cases qs with
                | nil => exact absurd rfl hqs
                | cons b bs =>
                  show nodeAt (newFile a rel sz) (b :: bs) = none
                  exact nodeAt_cons_none
                    (by rw [newFile_childrenL]; exact childNamed_nil b) bs
              · rw [childNamed_cons, if_neg (by simp; intro hh; exact hap hh.symm),
                  childNamed_nil]
        · intro q' hq' hpre hne
          rcases prefix_singleton hpre with rfl | rfl
          · exact absurd rfl hq'
          · exact absurd rfl hne
        · rw [nodeAt_cons, setChildren_childrenL, childNamed_append, hc]
          simp only
          rw [childNamed_cons, if_pos (by simp), nodeAt_cons, hc]
          rfl
    | cons q rest =>
      rw [insertParts]
      cases hc : childNamed n.childrenL p with
      | some c =>
        simp only
        have hcdir : c.ty = "dir" := by
          refine hInter [p] c (by simp) ⟨q :: rest, rfl⟩ (by simp) ?_
          rw [nodeAt_cons, hc]
          rfl
        have hInterC : HInter c (q :: rest) := by
          intro q' m hq' hpre hneq hm
          refine hInter (p :: q') m (by simp) ?_ (by simp [hneq]) ?_
          · rw [List.cons_prefix_cons]
            exact ⟨rfl, hpre⟩
          · rw [nodeAt_cons_some hc]
            exact hm
        obtain ⟨⟨hname, hty, hrp, hfl⟩, hsnd, hsize, h4, h5, h6⟩ :=
          ih c (by simp) hInterC
        have hr2 : (insertParts c (q :: rest) rel sz).2 = true := by
          rw [hsnd, hcdir]
          rfl
        rw [hr2]
        simp only [Bool.true_and, if_pos]
        obtain ⟨l1, l2, hdec, hl1, hcname⟩ := childNamed_decomp hc
        have hrepl : replaceNamed n.childrenL p (insertParts c (q :: rest) rel sz).1 =
            l1 ++ (insertParts c (q :: rest) rel sz).1 :: l2 := by
          rw [hdec]
          exact replaceNamed_of_decomp hl1 hcname _
        have hr1name : (insertParts c (q :: rest) rel sz).1.name = p := by
          rw [hname, hcname]
        have hlook :
            childNamed (setChildren (addSize n sz)
                (replaceNamed n.childrenL p (insertParts c (q :: rest) rel sz).1)).childrenL p =
              some (insertParts c (q :: rest) rel sz).1 := by
          rw [setChildren_childrenL, hrepl]
          exact childNamed_hit hl1 hr1name
        refine ⟨⟨by simp, by simp, by simp, by simp⟩, by simp, by simp, ?_, ?_, ?_⟩
        · intro q' hq'
          cases q' with
          | nil => exact absurd List.nil_prefix hq'
          | cons a qs =>
            by_cases hap : a = p
            · subst hap
              have hqs : ¬ qs <+: q :: rest := by
                intro hqs
                exact hq' (by rw [List.cons_prefix_cons]; exact ⟨rfl, hqs⟩)
              rw [nodeAt_cons, hlook, nodeAt_cons_some hc]
              exact h4 qs hqs
            · rw [nodeAt_cons, nodeAt_cons, setChildren_childrenL, hrepl, hdec]
              rw [childNamed_middle_ne
                (by rw [hr1name]; exact fun hh => hap hh.symm)
                (by rw [hcname]; exact fun hh => hap hh.symm)]
        · intro q' hq' hpre hne
          cases q' with
          | nil => exact absurd rfl hq'
          | cons a qs =>
            rw [List.cons_prefix_cons] at hpre
            obtain ⟨rfl, hqs⟩ := hpre
            cases qs with
            | nil =>
              refine ⟨(insertParts c (q :: rest) rel sz).1, ?_, by rw [hty, hcdir], ?_⟩
              · rw [nodeAt_cons, hlook]
                rfl
              · rw [nodeAt_cons, hc]
                simp only [nodeAt_nil, Option.elim]
                exact hsize
            | cons b bs =>
              obtain ⟨m', hm1, hm2, hm3⟩ :=
                h5 (b :: bs) (by simp) hqs (by intro hh; exact hne (by rw [hh]))
              refine ⟨m', ?_, hm2, ?_⟩
              · rw [nodeAt_cons, hlook]
                exact hm1
              · rw [nodeAt_cons_some hc]
                exact hm3
        · rw [nodeAt_cons_some hlook, nodeAt_cons_some hc, h6]
          rw [show ((p :: q :: rest).getLastD "") = ((q :: rest).getLastD "") from by
            rw [List.getLastD_cons]; exact (getLastD_irrel q rest p "")]
      | none =>
        simp only
        have hInterD : HInter (newDir p) (q :: rest) := by
          intro q' m hq' _ _ hm
          cases q' with
          | nil => exact absurd rfl hq'
          | cons a qs =>
            rw [nodeAt_cons_none (by rw [newDir_childrenL]; exact childNamed_nil a)] at hm
            exact absurd hm (by simp)
        obtain ⟨⟨hname, hty, hrp, hfl⟩, hsnd, hsize, h4, h5, h6⟩ :=
          ih (newDir p) (by simp) hInterD
        have hr2 : (insertParts (newDir p) (q :: rest) rel sz).2 = true := by
          rw [hsnd]
          rfl
        rw [hr2]
        simp only [Bool.true_and, if_pos]
        have hl1 : ∀ x ∈ n.childrenL, x.name ≠ p := childNamed_none_forall hc
        have hrepl : replaceNamed (n.childrenL ++ [newDir p]) p
              (insertParts (newDir p) (q :: rest) rel sz).1 =
            n.childrenL ++ (insertParts (newDir p) (q :: rest) rel sz).1 :: [] :=
          replaceNamed_of_decomp hl1 (by simp) _
        have hr1name : (insertParts (newDir p) (q :: rest) rel sz).1.name = p := by
          rw [hname]
          simp
        have hlook :
            childNamed (setChildren (addSize n sz)
                (replaceNamed (n.childrenL ++ [newDir p]) p
                  (insertParts (newDir p) (q :: rest) rel sz).1)).childrenL p =
              some (insertParts (newDir p) (q :: rest) rel sz).1 := by
          rw [setChildren_childrenL, hrepl]
          exact childNamed_hit hl1 hr1name
        have hDirNone : ∀ qs : List String, qs ≠ [] →
            nodeAt (newDir p) qs = none := by
          intro qs hqs
          cases qs with
          | nil => exact absurd rfl hqs
          | cons b bs =>
            exact nodeAt_cons_none (by rw [newDir_childrenL]; exact childNamed_nil b) bs
        refine ⟨⟨by simp, by simp, by simp, by simp⟩, by simp, by simp, ?_, ?_, ?_⟩
        · intro q' hq'
          cases q' with
          | nil => exact absurd List.nil_prefix hq'
          | cons a qs =>
            by_cases hap : a = p
            · subst hap
              have hqs : ¬ qs <+: q :: rest := by
                intro hqs
                exact hq' (by rw [List.cons_prefix_cons]; exact ⟨rfl, hqs⟩)
              have hqsne : qs ≠ [] := by
                intro hh
                subst hh
                exact hqs List.nil_prefix
              rw [nodeAt_cons_some hlook, h4 qs hqs, hDirNone qs hqsne,
                nodeAt_cons_none hc]
            · rw [nodeAt_cons, nodeAt_cons, setChildren_childrenL, hrepl]
              rw [childNamed_append, childNamed_cons,
                if_neg (by rw [hr1name]; simp; intro hh; exact hap hh.symm), childNamed_nil]
              cases hca : childNamed n.childrenL a with
              | some c2 => rfl
              | none => rfl
        · intro q' hq' hpre hne
          cases q' with
          | nil => exact absurd rfl hq'
          | cons a qs =>
            rw [List.cons_prefix_cons] at hpre
            obtain ⟨rfl, hqs⟩ := hpre
            cases qs with
            | nil =>
              refine ⟨(insertParts (newDir a) (q :: rest) rel sz).1, ?_, by rw [hty]; rfl, ?_⟩
              · rw [nodeAt_cons, hlook]
                rfl
              · rw [nodeAt_cons_none hc]
                simp only [Option.elim]
                rw [hsize]
                rfl
            | cons b bs =>
              obtain ⟨m', hm1, hm2, hm3⟩ :=
                h5 (b :: bs) (by simp) hqs (by intro hh; exact hne (by rw [hh]))
              refine ⟨m', ?_, hm2, ?_⟩
              · rw [nodeAt_cons, hlook]
                exact hm1
              · rw [nodeAt_cons_none hc]
                rw [hDirNone (b :: bs) (by simp)] at hm3
                exact hm3
        · rw [nodeAt_cons_some hlook, h6, hDirNone (q :: rest) (by simp),
            nodeAt_cons_none hc]
          rw [show ((p :: q :: rest).getLastD "") = ((q :: rest).getLastD "") from by
            rw [List.getLastD_cons]; exact (getLastD_irrel q rest p "")]

/-- Inserting a FRESH path (no node at the full path yet) through
directory-only ancestors preserves the per-directory mass-conservation
invariant and adds exactly the entry's size to the subtree's file total. -/
theorem insertParts_sizeInv (rel : String) (sz : Nat) :
    ∀ (parts : List String) (n : PNode), parts ≠ [] → HInter n parts →
      nodeAt n parts = none → n.ty = "dir" → AllN SizeOK n →
      AllN SizeOK (insertParts n parts rel sz).1 ∧
      subtreeFileSum (insertParts n parts rel sz).1 = subtreeFileSum n + sz := by
  intro parts
  induction parts with
  | nil => intro n h _ _ _ _; exact absurd rfl h
  | cons p tail ih =>
    intro n _ hInter hFresh hdir hAll
    cases tail with
    | nil =>
      rw [insertParts]
      cases hc : childNamed n.childrenL p with
      | some c =>
        rw [nodeAt_cons_some hc, nodeAt_nil] at hFresh
        exact absurd hFresh (by simp)
      | none =>
        simp only
        have hself := hAll.self hdir
        constructor
        · refine AllN.node ?_ ?_
          · intro hty
            rw [setChildren_childrenL, setChildren_size, addSize_size,
              subtreeFileSumL_append, subtreeFileSumL_cons, subtreeFileSumL_nil,
              subtreeFileSum_newFile, hself]
            omega
          · intro x hx
            rw [setChildren_childrenL] at hx
            rcases List.mem_append.mp hx with hx | hx
            · exact hAll.child hx
            · rw [List.mem_singleton] at hx
              subst hx
              refine AllN_newFile ?_
              intro hty
              rw [newFile_ty] at hty
              simp at hty
        · rw [subtreeFileSum_eq, subtreeFileSum_eq, setChildren_ty, addSize_ty,
            setChildren_childrenL, setChildren_size, addSize_size,
            subtreeFileSumL_append, subtreeFileSumL_cons, subtreeFileSumL_nil,
            subtreeFileSum_newFile]
          rw [hdir]
          simp
    | cons q rest =>
      rw [insertParts]
      cases hc : childNamed n.childrenL p with
      | some c =>
        simp only
        have hcdir : c.ty = "dir" := by
          refine hInter [p] c (by simp) ⟨q :: rest, rfl⟩ (by simp) ?_
          rw [nodeAt_cons, hc]
          rfl
        have hInterC : HInter c (q :: rest) := by
          intro q' m hq' hpre hneq hm
          refine hInter (p :: q') m (by simp) ?_ (by simp [hneq]) ?_
          · rw [List.cons_prefix_cons]
            exact ⟨rfl, hpre⟩
          · rw [nodeAt_cons_some hc]
            exact hm
        have hFreshC : nodeAt c (q :: rest) = none := by
          rw [nodeAt_cons_some hc] at hFresh
          exact hFresh
        obtain ⟨hAllc, hsumc⟩ :=
          ih c (by simp) hInterC hFreshC hcdir (hAll.child (childNamed_mem hc))
        obtain ⟨⟨hname, hty, _, _⟩, hsnd, hsize, _, _, _⟩ :=
          insertParts_main rel sz (q :: rest) c (by simp) hInterC
        have hr2 : (insertParts c (q :: rest) rel sz).2 = true := by
          rw [hsnd, hcdir]
          rfl
        rw [hr2]
        simp only [if_pos]
        obtain ⟨l1, l2, hdec, hl1, hcname⟩ := childNamed_decomp hc
        have hrepl : replaceNamed n.childrenL p (insertParts c (q :: rest) rel sz).1 =
            l1 ++ (insertParts c (q :: rest) rel sz).1 :: l2 := by
          rw [hdec]
          exact replaceNamed_of_decomp hl1 hcname _
        have hself := hAll.self hdir
        have hsums : subtreeFileSumL
            (replaceNamed n.childrenL p (insertParts c (q :: rest) rel sz).1) =
            subtreeFileSumL n.childrenL + sz := by
          rw [hrepl, hdec, subtreeFileSumL_append, subtreeFileSumL_append,
            subtreeFileSumL_cons, subtreeFileSumL_cons, hsumc]
          omega
        constructor
        · refine AllN.node ?_ ?_
          · intro _
            rw [setChildren_childrenL, setChildren_size, addSize_size, hsums, hself]
          · intro x hx
            rw [setChildren_childrenL] at hx
            rcases mem_replaceNamed hx with rfl | hx
            · exact hAllc
            · exact hAll.child hx
        · rw [subtreeFileSum_eq, subtreeFileSum_eq, setChildren_ty, addSize_ty,
            setChildren_childrenL, hsums, hdir]
          simp
      | none =>
        simp only
        have hInterD : HInter (newDir p) (q :: rest) := by
          intro q' m hq' _ _ hm
          cases q' with
          | nil => exact absurd rfl hq'
          | cons a qs =>
            rw [nodeAt_cons_none (by rw [newDir_childrenL]; exact childNamed_nil a)] at hm
            exact absurd hm (by simp)
        have hFreshD : nodeAt (newDir p) (q :: rest) = none :=
          nodeAt_cons_none (by rw [newDir_childrenL]; exact childNamed_nil q) rest
        have hAllD : AllN SizeOK (newDir p) := by
          refine AllN_newDir ?_
          intro _
          rw [newDir_size, newDir_childrenL, subtreeFileSumL_nil]
        obtain ⟨hAllc, hsumc⟩ := ih (newDir p) (by simp) hInterD hFreshD rfl hAllD
        obtain ⟨⟨hname, hty, _, _⟩, hsnd, hsize, _, _, _⟩ :=
          insertParts_main rel sz (q :: rest) (newDir p) (by simp) hInterD
        have hr2 : (insertParts (newDir p) (q :: rest) rel sz).2 = true := by
          rw [hsnd]
          rfl
        rw [hr2]
        simp only [if_pos]
        have hl1 : ∀ x ∈ n.childrenL, x.name ≠ p := childNamed_none_forall hc
        have hrepl : replaceNamed (n.childrenL ++ [newDir p]) p
              (insertParts (newDir p) (q :: rest) rel sz).1 =
            n.childrenL ++ (insertParts (newDir p) (q :: rest) rel sz).1 :: [] :=
          replaceNamed_of_decomp hl1 (by simp) _
        have hself := hAll.self hdir
        have hsumD : subtreeFileSum (insertParts (newDir p) (q :: rest) rel sz).1 = sz := by
          rw [hsumc, subtreeFileSum_newDir]
          omega
        have hsums : subtreeFileSumL
            (replaceNamed (n.childrenL ++ [newDir p]) p
              (insertParts (newDir p) (q :: rest) rel sz).1) =
            subtreeFileSumL n.childrenL + sz := by
          rw [hrepl, subtreeFileSumL_append, subtreeFileSumL_cons,
            subtreeFileSumL_nil, hsumD]
          omega
        constructor
        · refine AllN.node ?_ ?_
          · intro _
            rw [setChildren_childrenL, setChildren_size, addSize_size, hsums, hself]
          · intro x hx
            rw [setChildren_childrenL] at hx
            rcases mem_replaceNamed hx with rfl | hx
            · exact hAllc
            · rcases List.mem_append.mp hx with hx | hx
              · exact hAll.child hx
              · rw [List.mem_singleton] at hx
                subst hx
                exact hAllD
        · rw [subtreeFileSum_eq, subtreeFileSum_eq, setChildren_ty, addSize_ty,
            setChildren_childrenL, hsums, hdir]
          simp

/- ===================== fold-level invariant ===================== -/

/-- Invariant of the insertion loop over the already-inserted triples `done`
(duplicate paths allowed, no proper-prefix pair): the root stays a
directory; nodes are dir- or file-typed; file nodes sit only at inserted
paths; the root's size is the sum of all inserted sizes; at every inserted
path sits the file node of the FIRST occurrence; and every non-root
directory node lies strictly above some inserted path and weighs the sum of
the occurrences passing strictly through it. -/
def InvW (t : PNode) (done : List (List String × String × Nat)) : Prop :=
  t.ty = "dir" ∧
  AllN WT t ∧
  (∀ q m, nodeAt t q = some m → m.ty = "file" → q ∈ done.map (fun d => d.1)) ∧
  t.size = sumSizesT done ∧
  (∀ d ∈ done, nodeAt t d.1 =
     some (newFile (d.1.getLastD "") ((firstT done d.1).elim "" (fun x => x.2.1))
       ((firstT done d.1).elim 0 (fun x => x.2.2)))) ∧
  (∀ q m, q ≠ [] → nodeAt t q = some m → m.ty = "dir" →
     (∃ d ∈ done, q <+: d.1 ∧ q ≠ d.1) ∧ m.size = sumThroughT done q)

theorem sumSizesT_append (l1 l2 : List (List String × String × Nat)) :
    sumSizesT (l1 ++ l2) = sumSizesT l1 + sumSizesT l2 := by
  unfold sumSizesT
  rw [List.map_append, List.sum_append]

theorem sumThroughT_append_single (l : List (List String × String × Nat))
    (e : List String × String × Nat) (q : List String) :
    sumThroughT (l ++ [e]) q =
      sumThroughT l q + (if (q.isPrefixOf e.1 && !(q == e.1)) = true then e.2.2 else 0) := by
  unfold sumThroughT
  rw [List.filter_append, List.map_append, List.sum_append]
  congr 1
  by_cases h : (q.isPrefixOf e.1 && !(q == e.1)) = true <;>
    simp [List.filter_cons, h]

theorem firstT_append_left {l1 l2 : List (List String × String × Nat)}
    {q : List String} (h : (firstT l1 q).isSome) :
    firstT (l1 ++ l2) q = firstT l1 q := by
  unfold firstT at *
  rw [List.find?_append]
  cases hf : l1.find? (fun e => e.1 == q) with
  | some x => rfl
  | none => rw [hf] at h; simp at h

theorem firstT_isSome_of_mem {done : List (List String × String × Nat)}
    {d : List String × String × Nat} (hd : d ∈ done) : (firstT done d.1).isSome := by
  unfold firstT
  rw [List.find?_isSome]
  exact ⟨d, hd, by simp⟩

theorem firstT_none_append {l : List (List String × String × Nat)}
    {e : List String × String × Nat} {q : List String}
    (h : firstT l q = none) (he : e.1 = q) :
    firstT (l ++ [e]) q = some e := by
  unfold firstT at *
  rw [List.find?_append, h]
  simp [List.find?, he]

theorem InvW_rootNode : InvW rootNode [] := by
  refine ⟨rfl, ?_, ?_, rfl, ?_, ?_⟩
  · refine AllN.node (Or.inl rfl) ?_
    intro c hc
    simp [rootNode, PNode.childrenL, PNode.children] at hc
  · intro q m hm hf
    cases q with
    | nil =>
      rw [nodeAt_nil] at hm
      have : m = rootNode := by injection hm.symm
      subst this
      simp [rootNode, PNode.ty] at hf
    | cons p ps =>
      rw [nodeAt_cons_none (by exact childNamed_nil p)] at hm
      exact absurd hm (by simp)
  · intro d hd
    simp at hd
  · intro q m hq hm _
    cases q with
    | nil => exact absurd rfl hq
    | cons p ps =>
      rw [nodeAt_cons_none (by exact childNamed_nil p)] at hm
      exact absurd hm (by simp)

/-- One iteration of the insertion loop preserves `InvW`, the new triple
appended, provided the new path is non-empty and not in a proper-prefix
relation with any already-inserted path. -/
theorem InvW_step (t : PNode) (done : List (List String × String × Nat))
    (e : List String × String × Nat)
    (hInv : InvW t done) (hne : e.1 ≠ [])
    (hcompat : ∀ d ∈ done, wpfPair d.1 e.1) :
    InvW (insTriple t e) (done ++ [e]) := by
  obtain ⟨h1, h2, h3, h4, h5, h6⟩ := hInv
  have hInter : HInter t e.1 := by
    intro q m hq hpre hneq hm
    rcases (h2.nodeAt hm : WT m) with hd | hf
    · exact hd
    · exfalso
      have hqin := h3 q m hm hf
      rw [List.mem_map] at hqin
      obtain ⟨d, hd, hdq⟩ := hqin
      exact hneq (by rw [← hdq]; exact (hcompat d hd).1 (by rw [hdq]; exact hpre))
  obtain ⟨⟨hname, hty, hrp, hfl⟩, hsnd, hsize, h4', h5', h6'⟩ :=
    insertParts_main e.2.1 e.2.2 e.1 t hne hInter
  show InvW (insertParts t e.1 e.2.1 e.2.2).1 (done ++ [e])
  refine ⟨by rw [hty]; exact h1, ?_, ?_, ?_, ?_, ?_⟩
  · exact insertParts_AllN WT
      (fun nm rel sz => Or.inr rfl) (fun nm => Or.inl rfl)
      (fun m cs h => by unfold WT at *; rw [setChildren_ty]; exact h)
      (fun m k h => by unfold WT at *; rw [addSize_ty]; exact h)
      e.1 t e.2.1 e.2.2 h2
  · intro q m hm hf
    by_cases hq0 : q <+: e.1
    · by_cases hqe : q = e.1
      · subst hqe
        rw [List.map_append]
        exact List.mem_append_right _ (by simp)
      · by_cases hqnil : q = []
        · subst hqnil
          rw [nodeAt_nil] at hm
          have : m = (insertParts t e.1 e.2.1 e.2.2).1 := by injection hm.symm
          subst this
          rw [hty, h1] at hf
          simp at hf
        · obtain ⟨m', hm', hmd, _⟩ := h5' q hqnil hq0 hqe
          rw [hm'] at hm
          have : m' = m := by injection hm
          subst this
          rw [hf] at hmd
          simp at hmd
    · rw [h4' q hq0] at hm
      rw [List.map_append]
      exact List.mem_append_left _ (h3 q m hm hf)
  · rw [hsize, h4, sumSizesT_append]
    rfl
  · intro d hd
    rcases List.mem_append.mp hd with hd | hd
    · have hstable : firstT (done ++ [e]) d.1 = firstT done d.1 :=
        firstT_append_left (firstT_isSome_of_mem hd)
      rw [hstable]
      by_cases hde : d.1 = e.1
      · rw [hde, h6']
        rw [← hde, h5 d hd]
        rfl
      · have hnp : ¬ d.1 <+: e.1 := by
          intro hp
          exact hde ((hcompat d hd).1 hp)
        rw [h4' d.1 hnp]
        exact h5 d hd
    · have hde := List.mem_singleton.mp hd
      rw [hde]
      cases hnq : nodeAt t e.1 with
      | some m₀ =>
        rcases (h2.nodeAt hnq : WT m₀) with hmd | hmf
        · exfalso
          obtain ⟨⟨d2, hd2, hpre2, hne2⟩, _⟩ := h6 e.1 m₀ hne hnq hmd
          exact hne2 ((hcompat d2 hd2).2 hpre2)
        · have hein := h3 e.1 m₀ hnq hmf
          rw [List.mem_map] at hein
          obtain ⟨d', hd', hdq'⟩ := hein
          have hstable : firstT (done ++ [e]) e.1 = firstT done e.1 := by
            rw [← hdq']
            exact firstT_append_left (firstT_isSome_of_mem hd')
          have hval := h5 d' hd'
          rw [hdq', hnq] at hval
          have hm₀ := Option.some.inj hval
          rw [hstable, h6', hnq, hm₀]
          rfl
      | none =>
        have hfnone : firstT done e.1 = none := by
          cases hf : firstT done e.1 with
          | none => rfl
          | some x =>
            exfalso
            have hx : x ∈ done ∧ (x.1 == e.1) = true := by
              have h1' := List.mem_of_find?_eq_some hf
              have h2' := List.find?_some hf
              exact ⟨h1', h2'⟩
            have hx1 : x.1 = e.1 := by simpa using hx.2
            have := h5 x hx.1
            rw [hx1, hnq] at this
            exact absurd this (by simp)
        rw [firstT_none_append hfnone rfl, h6', hnq]
        rfl
  · intro q m hq hm hdirm
    by_cases hq0 : q <+: e.1
    · by_cases hqe : q = e.1
      · exfalso
        subst hqe
        rw [h6'] at hm
        cases hnq : nodeAt t e.1 with
        | some m₀ =>
          rw [hnq] at hm
          have hmm : m₀ = m := by injection hm
          rcases (h2.nodeAt hnq : WT m₀) with hmd | hmf
          · obtain ⟨⟨d2, hd2, hpre2, hne2⟩, _⟩ := h6 e.1 m₀ hq hnq hmd
            exact hne2 ((hcompat d2 hd2).2 hpre2)
          · rw [hmm, hdirm] at hmf
            simp at hmf
        | none =>
          rw [hnq] at hm
          have hmm : newFile (e.1.getLastD "") e.2.1 e.2.2 = m := by injection hm
          rw [← hmm] at hdirm
          rw [newFile_ty] at hdirm
          simp at hdirm
      · obtain ⟨m', hm', hmd', hsz'⟩ := h5' q hq hq0 hqe
        rw [hm'] at hm
        have : m' = m := by injection hm
        subst this
        constructor
        · exact ⟨e, List.mem_append_right _ (by simp), hq0, hqe⟩
        · rw [sumThroughT_append_single, if_pos
            (by rw [Bool.and_eq_true]; constructor
                · rw [List.isPrefixOf_iff_prefix]; exact hq0
                · simp [hqe])]
          cases hnq : nodeAt t q with
          | some m₀ =>
            have hm₀d : m₀.ty = "dir" := hInter q m₀ hq hq0 hqe hnq
            obtain ⟨_, hsum₀⟩ := h6 q m₀ hq hnq hm₀d
            rw [hnq] at hsz'
            simp only [Option.elim] at hsz'
            rw [hsz', hsum₀]
          | none =>
            have hzero : sumThroughT done q = 0 := by
              unfold sumThroughT
              rw [show (done.filter fun d => q.isPrefixOf d.1 && !(q == d.1)) = [] from ?_]
              · rfl
              · rw [List.filter_eq_nil_iff]
                intro d hd hcond
                rw [Bool.and_eq_true, List.isPrefixOf_iff_prefix] at hcond
                obtain ⟨hpre, _⟩ := hcond
                obtain ⟨suf, hsuf⟩ := hpre
                have := h5 d hd
                rw [← hsuf] at this
                obtain ⟨m1, hm1⟩ := nodeAt_append_isSome this
                rw [hnq] at hm1
                exact absurd hm1 (by simp)
            rw [hnq] at hsz'
            simp only [Option.elim] at hsz'
            rw [hsz', hzero]
    · rw [h4' q hq0] at hm
      obtain ⟨⟨d2, hd2, hpre2, hne2⟩, hsum2⟩ := h6 q m hq hm hdirm
      constructor
      · exact ⟨d2, List.mem_append_left _ hd2, hpre2, hne2⟩
      · rw [sumThroughT_append_single, if_neg
          (by rw [Bool.and_eq_true]; intro hcond
              rw [List.isPrefixOf_iff_prefix] at hcond
              exact hq0 hcond.1)]
        rw [hsum2]
        omega

/-- The insertion loop maintains `InvW` over any suffix of entries whose
paths are non-empty and pairwise free of proper-prefix relations (with the
already-inserted entries and among themselves). -/
theorem foldTriples_InvW :
    ∀ (es done : List (List String × String × Nat)) (t : PNode), InvW t done →
      (∀ e ∈ es, e.1 ≠ []) →
      (∀ d ∈ done, ∀ e ∈ es, wpfPair d.1 e.1) →
      es.Pairwise (fun a b => wpfPair a.1 b.1) →
      InvW (foldTriples t es) (done ++ es) := by
  intro es
  induction es with
  | nil =>
    intro done t h _ _ _
    simpa using h
  | cons e es ih =>
    intro done t hInv hne hcross hpw
    have hstep := InvW_step t done e hInv (hne e (by simp))
      (fun d hd => hcross d hd e (by simp))
    have hpw' := (List.pairwise_cons.mp hpw)
    have hres := ih (done ++ [e]) (insTriple t e) hstep
      (fun x hx => hne x (by simp [hx]))
      (fun d hd x hx => by
        rcases List.mem_append.mp hd with hd | hd
        · exact hcross d hd x (by simp [hx])
        · rw [List.mem_singleton] at hd
          subst hd
          exact hpw'.1 x hx)
      hpw'.2
    rw [List.append_assoc] at hres
    simpa [foldTriples] using hres

/-- Strong-prefix-free invariant for the per-directory mass-conservation
claim: root is a dir, nodes are well-typed, file nodes only at inserted
paths, non-root dirs strictly above some inserted path, and every directory
node satisfies `SizeOK`. -/
def InvS (t : PNode) (done : List (List String × String × Nat)) : Prop :=
  t.ty = "dir" ∧
  AllN WT t ∧
  (∀ q m, nodeAt t q = some m → m.ty = "file" → q ∈ done.map (fun d => d.1)) ∧
  (∀ q m, q ≠ [] → nodeAt t q = some m → m.ty = "dir" →
     ∃ d ∈ done, q <+: d.1 ∧ q ≠ d.1) ∧
  AllN SizeOK t

theorem InvS_rootNode : InvS rootNode [] := by
  refine ⟨rfl, ?_, ?_, ?_, ?_⟩
  · refine AllN.node (Or.inl rfl) ?_
    intro c hc
    simp [rootNode, PNode.childrenL, PNode.children] at hc
  · intro q m hm hf
    cases q with
    | nil =>
      rw [nodeAt_nil] at hm
      have : m = rootNode := by injection hm.symm
      subst this
      simp [rootNode, PNode.ty] at hf
    | cons p ps =>
      rw [nodeAt_cons_none (by exact childNamed_nil p)] at hm
      exact absurd hm (by simp)
  · intro q m hq hm _
    cases q with
    | nil => exact absurd rfl hq
    | cons p ps =>
      rw [nodeAt_cons_none (by exact childNamed_nil p)] at hm
      exact absurd hm (by simp)
  · refine AllN.node ?_ ?_
    · intro _
      rw [show rootNode.childrenL = [] from rfl, subtreeFileSumL_nil]
      rfl
    · intro c hc
      simp [rootNode, PNode.childrenL, PNode.children] at hc

theorem InvS_step (t : PNode) (done : List (List String × String × Nat))
    (e : List String × String × Nat)
    (hInv : InvS t done) (hne : e.1 ≠ [])
    (hcompat : ∀ d ∈ done, spfPair d.1 e.1) :
    InvS (insTriple t e) (done ++ [e]) := by
  obtain ⟨h1, h2, h3, h4, h5⟩ := hInv
  have hInter : HInter t e.1 := by
    intro q m hq hpre hneq hm
    rcases (h2.nodeAt hm : WT m) with hd | hf
    · exact hd
    · exfalso
      have hqin := h3 q m hm hf
      rw [List.mem_map] at hqin
      obtain ⟨d, hd, hdq⟩ := hqin
      exact (hcompat d hd).1 (by rw [hdq]; exact hpre)
  have hFresh : nodeAt t e.1 = none := by
    cases hnq : nodeAt t e.1 with
    | none => rfl
    | some m₀ =>
      exfalso
      rcases (h2.nodeAt hnq : WT m₀) with hmd | hmf
      · obtain ⟨d2, hd2, hpre2, hne2⟩ := h4 e.1 m₀ hne hnq hmd
        exact (hcompat d2 hd2).2 hpre2
      · have hein := h3 e.1 m₀ hnq hmf
        rw [List.mem_map] at hein
        obtain ⟨d', hd', hdq'⟩ := hein
        exact (hcompat d' hd').1 (by rw [hdq'])
  obtain ⟨⟨hname, hty, hrp, hfl⟩, hsnd, hsize, h4', h5', h6'⟩ :=
    insertParts_main e.2.1 e.2.2 e.1 t hne hInter
  obtain ⟨hSizeAll, hSum⟩ :=
    insertParts_sizeInv e.2.1 e.2.2 e.1 t hne hInter hFresh h1 h5
  show InvS (insertParts t e.1 e.2.1 e.2.2).1 (done ++ [e])
  refine ⟨by rw [hty]; exact h1, ?_, ?_, ?_, hSizeAll⟩
  · exact insertParts_AllN WT
      (fun nm rel sz => Or.inr rfl) (fun nm => Or.inl rfl)
      (fun m cs h => by unfold WT at *; rw [setChildren_ty]; exact h)
      (fun m k h => by unfold WT at *; rw [addSize_ty]; exact h)
      e.1 t e.2.1 e.2.2 h2
  · intro q m hm hf
    by_cases hq0 : q <+: e.1
    · by_cases hqe : q = e.1
      · subst hqe
        rw [List.map_append]
        exact List.mem_append_right _ (by simp)
      · by_cases hqnil : q = []
        · subst hqnil
          rw [nodeAt_nil] at hm
          have : m = (insertParts t e.1 e.2.1 e.2.2).1 := by injection hm.symm
          subst this
          rw [hty, h1] at hf
          simp at hf
        · obtain ⟨m', hm', hmd, _⟩ := h5' q hqnil hq0 hqe
          rw [hm'] at hm
          have : m' = m := by injection hm
          subst this
          rw [hf] at hmd
          simp at hmd
    · rw [h4' q hq0] at hm
      rw [List.map_append]
      exact List.mem_append_left _ (h3 q m hm hf)
  · intro q m hq hm hdirm
    by_cases hq0 : q <+: e.1
    · by_cases hqe : q = e.1
      · exfalso
        subst hqe
        rw [h6', hFresh] at hm
        have hmm : newFile (e.1.getLastD "") e.2.1 e.2.2 = m := by injection hm
        rw [← hmm, newFile_ty] at hdirm
        simp at hdirm
      · exact ⟨e, List.mem_append_right _ (by simp), hq0, hqe⟩
    · rw [h4' q hq0] at hm
      obtain ⟨d2, hd2, hpre2, hne2⟩ := h4 q m hq hm hdirm
      exact ⟨d2, List.mem_append_left _ hd2, hpre2, hne2⟩

theorem foldTriples_InvS :
    ∀ (es done : List (List String × String × Nat)) (t : PNode), InvS t done →
      (∀ e ∈ es, e.1 ≠ []) →
      (∀ d ∈ done, ∀ e ∈ es, spfPair d.1 e.1) →
      es.Pairwise (fun a b => spfPair a.1 b.1) →
      InvS (foldTriples t es) (done ++ es) := by
  intro es
  induction es with
  | nil =>
    intro done t h _ _ _
    simpa using h
  | cons e es ih =>
    intro done t hInv hne hcross hpw
    have hstep := InvS_step t done e hInv (hne e (by simp))
      (fun d hd => hcross d hd e (by simp))
    have hpw' := (List.pairwise_cons.mp hpw)
    have hres := ih (done ++ [e]) (insTriple t e) hstep
      (fun x hx => hne x (by simp [hx]))
      (fun d hd x hx => by
        rcases List.mem_append.mp hd with hd | hd
        · exact hcross d hd x (by simp [hx])
        · rw [List.mem_singleton] at hd
          subst hd
          exact hpw'.1 x hx)
      hpw'.2
    rw [List.append_assoc] at hres
    simpa [foldTriples] using hres

/- ===================== bridging the two folds to foldTriples ===================== -/

theorem build_tree_fold_eq (L : List (String × Nat)) :
    build_tree_fold L =
      foldTriples rootNode (L.map (fun e => (pySplitSlash e.1, e.1, e.2))) := by
  unfold build_tree_fold foldTriples
  rw [List.foldl_map]
  rfl

theorem build_tree_from_list_fold_eq (F : List SvnItem) :
    build_tree_from_list_fold F =
      foldTriples rootNode (F.map (fun it =>
        (partsIfNonempty (pyStripSlash it.relpath), pyStripSlash it.relpath, it.size))) := by
  unfold build_tree_from_list_fold foldTriples
  rw [List.foldl_map]
  rfl

theorem splitCharsAux_ne_nil (sep : Char) :
    ∀ (cs acc : List Char), splitCharsAux sep cs acc ≠ [] := by
  intro cs
  induction cs with
  | nil => intro acc; simp [splitCharsAux]
  | cons c cs ih =>
    intro acc
    rw [splitCharsAux]
    by_cases h : c = sep <;> simp [h, ih]

theorem pySplitSlash_ne_nil (s : String) : pySplitSlash s ≠ [] :=
  splitCharsAux_ne_nil '/' s.data []

theorem partsIfNonempty_ne_nil {rel : String} (h : rel ≠ "") :
    partsIfNonempty rel ≠ [] := by
  unfold partsIfNonempty
  rw [if_neg (by simpa using h)]
  exact pySplitSlash_ne_nil rel

theorem filter_map_general {α β : Type} (g : α → β) (p : β → Bool) (l : List α) :
    (l.map g).filter p = (l.filter (fun x => p (g x))).map g := by
  induction l with
  | nil => rfl
  | cons x xs ih =>
    simp only [List.map_cons, List.filter_cons]
    by_cases h : p (g x) = true <;> simp [h, ih]

theorem elim_map {α β γ : Type} (o : Option α) (f : α → β) (d : γ) (g : β → γ) :
    (o.map f).elim d g = o.elim d (fun x => g (f x)) := by
  cases o <;> rfl

instance (p q : List String) : Decidable (wpfPair p q) := by
  unfold wpfPair
  infer_instance

instance (p q : List String) : Decidable (spfPair p q) := by
  unfold spfPair
  infer_instance

/- ===================== C3 ===================== -/

/-- C3 counterexample: mass conservation FAILS on a flat entry list in which
one relative path is a proper segment-prefix of another. After inserting
`("a", 5)` the node at `a` is a FILE node; inserting `("a/b", 7)` then walks
through it, and the size bubbling (`while _n: _n['size'] += size;
_n = _n.get('_parent')`) starts at that file node, which has no `_parent`
key — so the 7 bytes are added to the file node `a` and never reach the
root: the root's total_size stays 5 while the entries sum to 12. -/
theorem mass_conservation_counterexample :
    (build_tree_fold [("a", 5), ("a/b", 7)]).size = 5 ∧
    (([("a", 5), ("a/b", 7)] : List (String × Nat)).map Prod.snd).sum = 12 := by
  constructor <;> decide

/-- C3 amended: for every flat entry list in which no relative path is a
proper segment-prefix of another entry's path (duplicate paths allowed; for
the remote-listing variant the stripped paths must also be non-empty), the
root node built by the insertion loop has `size` equal to the sum of the
sizes of all file entries in the list — zero-byte files included. -/
theorem tree_mass_conservation :
    (∀ L : List (String × Nat),
       L.Pairwise (fun a b => wpfPair (pySplitSlash a.1) (pySplitSlash b.1)) →
       (build_tree_fold L).size = (L.map Prod.snd).sum) ∧
    (∀ F : List SvnItem,
       (∀ it ∈ F, pyStripSlash it.relpath ≠ "") →
       F.Pairwise (fun a b => wpfPair (partsIfNonempty (pyStripSlash a.relpath))
         (partsIfNonempty (pyStripSlash b.relpath))) →
       (build_tree_from_list_fold F).size = (F.map SvnItem.size).sum) := by
  constructor
  · intro L hpw
    rw [build_tree_fold_eq]
    have hInv := foldTriples_InvW (L.map (fun e => (pySplitSlash e.1, e.1, e.2))) []
      rootNode InvW_rootNode
      (by
        intro e he
        rw [List.mem_map] at he
        obtain ⟨x, _, rfl⟩ := he
        exact pySplitSlash_ne_nil x.1)
      (by intro d hd; simp at hd)
      (by rw [List.pairwise_map]; exact hpw)
    rw [List.nil_append] at hInv
    obtain ⟨_, _, _, h4, _, _⟩ := hInv
    rw [h4]
    unfold sumSizesT
    rw [List.map_map]
    rfl
  · intro F hne hpw
    rw [build_tree_from_list_fold_eq]
    have hInv := foldTriples_InvW (F.map (fun it =>
        (partsIfNonempty (pyStripSlash it.relpath), pyStripSlash it.relpath, it.size))) []
      rootNode InvW_rootNode
      (by
        intro e he
        rw [List.mem_map] at he
        obtain ⟨x, hx, rfl⟩ := he
        exact partsIfNonempty_ne_nil (hne x hx))
      (by intro d hd; simp at hd)
      (by rw [List.pairwise_map]; exact hpw)
    rw [List.nil_append] at hInv
    obtain ⟨_, _, _, h4, _, _⟩ := hInv
    rw [h4]
    unfold sumSizesT
    rw [List.map_map]
    rfl

/-- Witness for C3: both variants on concrete prefix-free lists containing a
zero-byte file. -/
theorem tree_mass_conservation_witness :
    (build_tree_fold [("a/b", 10), ("a/c", 0), ("d", 3)]).size =
      (([("a/b", 10), ("a/c", 0), ("d", 3)] : List (String × Nat)).map Prod.snd).sum ∧
    (build_tree_from_list_fold [⟨"x/y", 4, false⟩, ⟨"/z/", 0, false⟩]).size =
      (([⟨"x/y", 4, false⟩, ⟨"/z/", 0, false⟩] : List SvnItem).map SvnItem.size).sum := by
  constructor
  · exact tree_mass_conservation.1 [("a/b", 10), ("a/c", 0), ("d", 3)] (by decide)
  · exact tree_mass_conservation.2 [⟨"x/y", 4, false⟩, ⟨"/z/", 0, false⟩]
      (by decide) (by decide)

/- ===================== C4 ===================== -/

/-- C4 counterexample: with an input list that duplicates a relative path,
a Directory node's `total_size` does NOT equal the sum of the File nodes
beneath it: after `[("a/b", 10), ("a/b", 7)]` the directory `a` weighs 17
(both occurrences bubbled through it) but it has exactly one child, the
file node `b` of size 10 (the duplicate's `setdefault` left it untouched) —
so the claimed equality fails on duplicate-containing lists. -/
theorem dir_size_counterexample :
    (nodeAt (build_tree_fold [("a/b", 10), ("a/b", 7)]) ["a"]).map PNode.size =
      some 17 ∧
    (nodeAt (build_tree_fold [("a/b", 10), ("a/b", 7)]) ["a"]).map
      (fun m => m.childrenL.length) = some 1 ∧
    (nodeAt (build_tree_fold [("a/b", 10), ("a/b", 7)]) ["a", "b"]).map
      (fun m => (m.ty, m.size)) = some ("file", 10) := by
  refine ⟨?_, ?_, ?_⟩ <;> decide

/-- C4 amended: for every input list whose segment paths are pairwise free
of prefix relations (in particular, no duplicate paths), every Directory
node of the tree built by the insertion loop — in both variants — has
`total_size` equal to the sum of the sizes of all File nodes beneath it;
with duplicate or prefix-related paths the equality can fail, since every
occurrence bubbles its size through the directories on its path while
`setdefault` keeps only the first file node. -/
theorem dir_sizes_sum_descendant_files :
    (∀ L : List (String × Nat),
       L.Pairwise (fun a b => spfPair (pySplitSlash a.1) (pySplitSlash b.1)) →
       AllN SizeOK (build_tree_fold L)) ∧
    (∀ F : List SvnItem,
       (∀ it ∈ F, pyStripSlash it.relpath ≠ "") →
       F.Pairwise (fun a b => spfPair (partsIfNonempty (pyStripSlash a.relpath))
         (partsIfNonempty (pyStripSlash b.relpath))) →
       AllN SizeOK (build_tree_from_list_fold F)) := by
  constructor
  · intro L hpw
    rw [build_tree_fold_eq]
    have hInv := foldTriples_InvS (L.map (fun e => (pySplitSlash e.1, e.1, e.2))) []
      rootNode InvS_rootNode
      (by
        intro e he
        rw [List.mem_map] at he
        obtain ⟨x, _, rfl⟩ := he
        exact pySplitSlash_ne_nil x.1)
      (by intro d hd; simp at hd)
      (by rw [List.pairwise_map]; exact hpw)
    exact hInv.2.2.2.2
  · intro F hne hpw
    rw [build_tree_from_list_fold_eq]
    have hInv := foldTriples_InvS (F.map (fun it =>
        (partsIfNonempty (pyStripSlash it.relpath), pyStripSlash it.relpath, it.size))) []
      rootNode InvS_rootNode
      (by
        intro e he
        rw [List.mem_map] at he
        obtain ⟨x, hx, rfl⟩ := he
        exact partsIfNonempty_ne_nil (hne x hx))
      (by intro d hd; simp at hd)
      (by rw [List.pairwise_map]; exact hpw)
    exact hInv.2.2.2.2

/-- Witness for C4 on the spec's own scenario list. -/
theorem dir_sizes_sum_descendant_files_witness :
    AllN SizeOK (build_tree_fold [("a/b.txt", 10), ("a/c.txt", 5), ("d.txt", 3)]) :=
  dir_sizes_sum_descendant_files.1 [("a/b.txt", 10), ("a/c.txt", 5), ("d.txt", 3)]
    (by decide)

/- ===================== C10 ===================== -/

/-- C10 counterexample: with duplicates whose path extends an earlier FILE
path, the root is NOT incremented by each occurrence's size: inserting
`("a", 5)` makes `a` a file node; both `("a/b", 7)` occurrences then bubble
their sizes into that file node and stop (it has no `_parent`), so the
root's total stays 5, not 5 + 7 + 9 — contradicting the claim that the
root and every ancestor directory absorb each occurrence of a duplicated
path. -/
theorem duplicate_path_root_counterexample :
    (build_tree_fold [("a", 5), ("a/b", 7), ("a/b", 9)]).size = 5 := by decide

/-- C10 amended: for every input list whose segment paths contain no proper
prefix pair (duplicate paths allowed): at each entry's path sits the file
node of the FIRST occurrence — the later duplicate overwrites neither its
name, nor its relpath, nor its size; the root's `total_size` is the sum of
every occurrence's size; and every strict ancestor directory of the path
weighs exactly the total of the occurrences passing strictly through it
(so each occurrence of a duplicate increments root and ancestors). -/
theorem duplicate_path_first_wins (L : List (String × Nat))
    (hpw : L.Pairwise (fun a b => wpfPair (pySplitSlash a.1) (pySplitSlash b.1)))
    (e : String × Nat) (he : e ∈ L) :
    nodeAt (build_tree_fold L) (pySplitSlash e.1) =
      some (newFile ((pySplitSlash e.1).getLastD "")
        ((L.find? (fun x => pySplitSlash x.1 == pySplitSlash e.1)).elim "" Prod.fst)
        ((L.find? (fun x => pySplitSlash x.1 == pySplitSlash e.1)).elim 0 Prod.snd)) ∧
    (build_tree_fold L).size = (L.map Prod.snd).sum ∧
    (∀ q, q ≠ [] → q <+: pySplitSlash e.1 → q ≠ pySplitSlash e.1 →
      ∃ m, nodeAt (build_tree_fold L) q = some m ∧ m.ty = "dir" ∧
        m.size = ((L.filter (fun x =>
          q.isPrefixOf (pySplitSlash x.1) && !(q == pySplitSlash x.1))).map Prod.snd).sum) := by
  have hInv := foldTriples_InvW (L.map (fun x => (pySplitSlash x.1, x.1, x.2))) []
    rootNode InvW_rootNode
    (by
      intro x hx
      rw [List.mem_map] at hx
      obtain ⟨y, _, rfl⟩ := hx
      exact pySplitSlash_ne_nil y.1)
    (by intro d hd; simp at hd)
    (by rw [List.pairwise_map]; exact hpw)
  rw [List.nil_append] at hInv
  obtain ⟨h1, h2, h3, h4, h5, h6⟩ := hInv
  rw [build_tree_fold_eq]
  have hfirst : firstT (L.map (fun x => (pySplitSlash x.1, x.1, x.2))) (pySplitSlash e.1) =
      (L.find? (fun x => pySplitSlash x.1 == pySplitSlash e.1)).map
        (fun x => (pySplitSlash x.1, x.1, x.2)) := by
    unfold firstT
    rw [List.find?_map]
    rfl
  refine ⟨?_, ?_, ?_⟩
  · have h5' := h5 (pySplitSlash e.1, e.1, e.2)
      (List.mem_map_of_mem (fun x => (pySplitSlash x.1, x.1, x.2)) he)
    rw [hfirst] at h5'
    rw [elim_map, elim_map] at h5'
    exact h5'
  · rw [h4]
    unfold sumSizesT
    rw [List.map_map]
    rfl
  · intro q hq hqpre hqne
    obtain ⟨suf, hsuf⟩ := hqpre
    have hfile := h5 (pySplitSlash e.1, e.1, e.2)
      (List.mem_map_of_mem (fun x => (pySplitSlash x.1, x.1, x.2)) he)
    have hconv : nodeAt (foldTriples rootNode
        (L.map (fun x => (pySplitSlash x.1, x.1, x.2)))) (q ++ suf) =
        some (newFile ((pySplitSlash e.1).getLastD "")
          ((firstT (L.map (fun x => (pySplitSlash x.1, x.1, x.2)))
            (pySplitSlash e.1)).elim "" (fun x => x.2.1))
          ((firstT (L.map (fun x => (pySplitSlash x.1, x.1, x.2)))
            (pySplitSlash e.1)).elim 0 (fun x => x.2.2))) := by
      rw [hsuf]
      exact hfile
    obtain ⟨m1, hm1⟩ := nodeAt_append_isSome hconv
    have hm1dir : m1.ty = "dir" := by
      rcases (h2.nodeAt hm1 : WT m1) with hd | hf
      · exact hd
      · exfalso
        have hqin := h3 q m1 hm1 hf
        rw [List.map_map, List.mem_map] at hqin
        obtain ⟨x, hx, hdq0⟩ := hqin
        have hdq : pySplitSlash x.1 = q := hdq0
        by_cases hxe : x = e
        · subst hxe
          exact hqne (by rw [← hdq])
        · have hsymm : Symmetric (fun a b : String × Nat =>
              wpfPair (pySplitSlash a.1) (pySplitSlash b.1)) := by
            intro a b hab
            exact ⟨hab.2, hab.1⟩
          have hrel := List.Pairwise.forall hsymm hpw hx he hxe
          have heq : pySplitSlash x.1 = pySplitSlash e.1 :=
            hrel.1 (by rw [hdq]; exact ⟨suf, hsuf⟩)
          exact hqne (by rw [← hdq, heq])
    obtain ⟨_, hsum⟩ := h6 q m1 hq hm1 hm1dir
    refine ⟨m1, hm1, hm1dir, ?_⟩
    rw [hsum]
    unfold sumThroughT
    rw [filter_map_general, List.map_map]
    rfl

/-- Witness for C10 on a concrete duplicate-containing list: the file node
at the duplicated path `a/b` keeps the first occurrence's size 10, and the
root holds the sum of all occurrences. -/
theorem duplicate_path_first_wins_witness :
    nodeAt (build_tree_fold [("a/b", 10), ("a/b", 7), ("c", 1)]) (pySplitSlash "a/b") =
      some (newFile ((pySplitSlash "a/b").getLastD "")
        ((([("a/b", 10), ("a/b", 7), ("c", 1)] : List (String × Nat)).find?
            (fun x => pySplitSlash x.1 == pySplitSlash "a/b")).elim "" Prod.fst)
        ((([("a/b", 10), ("a/b", 7), ("c", 1)] : List (String × Nat)).find?
            (fun x => pySplitSlash x.1 == pySplitSlash "a/b")).elim 0 Prod.snd)) ∧
    (build_tree_fold [("a/b", 10), ("a/b", 7), ("c", 1)]).size =
      (([("a/b", 10), ("a/b", 7), ("c", 1)] : List (String × Nat)).map Prod.snd).sum := by
  have h := duplicate_path_first_wins [("a/b", 10), ("a/b", 7), ("c", 1)]
    (by decide) ("a/b", 10) (by decide)
  exact ⟨h.1, h.2.1⟩

/- ===================== C5 ===================== -/

theorem AllN_rootNode {P : PNode → Prop} (h : P rootNode) : AllN P rootNode := by
  refine AllN.node h ?_
  intro c hc
  simp [rootNode, PNode.childrenL, PNode.children] at hc

/-- The insertion loop preserves closed per-node properties across a whole
entry list. -/
theorem foldTriples_AllN (P : PNode → Prop)
    (hFile : ∀ nm rel sz, P (newFile nm rel sz))
    (hDir : ∀ nm, P (newDir nm))
    (hSet : ∀ m cs, P m → P (setChildren m cs))
    (hAdd : ∀ m k, P m → P (addSize m k)) :
    ∀ (es : List (List String × String × Nat)) (t : PNode),
      AllN P t → AllN P (foldTriples t es) := by
  intro es
  induction es with
  | nil => intro t h; exact h
  | cons e es ih =>
    intro t h
    exact ih (insTriple t e)
      (insertParts_AllN P hFile hDir hSet hAdd e.1 t e.2.1 e.2.2 h)

theorem build_tree_fold_dictForm (L : List (String × Nat)) :
    AllN DictForm (build_tree_fold L) := by
  rw [build_tree_fold_eq]
  exact foldTriples_AllN DictForm
    (fun nm rel sz => rfl) (fun nm => rfl)
    (fun m cs h => by unfold DictForm at *; rw [setChildren_flag]; exact h)
    (fun m k h => by unfold DictForm at *; rw [addSize_flag]; exact h)
    _ rootNode (AllN_rootNode rfl)

theorem build_tree_from_list_fold_dictForm (F : List SvnItem) :
    AllN DictForm (build_tree_from_list_fold F) := by
  rw [build_tree_from_list_fold_eq]
  exact foldTriples_AllN DictForm
    (fun nm rel sz => rfl) (fun nm => rfl)
    (fun m cs h => by unfold DictForm at *; rw [setChildren_flag]; exact h)
    (fun m k h => by unfold DictForm at *; rw [addSize_flag]; exact h)
    _ rootNode (AllN_rootNode rfl)

/-- The `build_tree` finalize sorts every children dict of a
construction-phase tree. -/
theorem finalizeLocal_sorted :
    ∀ t : PNode, AllN DictForm t → AllN SortedChildren (finalizeLocal t) := by
  refine PNode.inductionOn
    (fun t => AllN DictForm t → AllN SortedChildren (finalizeLocal t)) ?_
  intro n ihc hdict
  cases n with
  | mk nm t rp sz ch il =>
    have hfl : il = false := hdict.self
    subst hfl
    cases ch with
    | none =>
      rw [finalizeLocal_eq_skip _ (by intro c cs hc; simp [PNode.children] at hc)]
      refine AllN.node ?_ ?_
      · intro _
        rw [show (PNode.mk nm t rp sz none false).childrenL = [] from rfl]
        exact List.sorted_nil
      · intro c hc
        simp [PNode.childrenL, PNode.children] at hc
    | some l =>
      cases l with
      | nil =>
        rw [finalizeLocal_eq_skip _ (by intro c cs hc; simp [PNode.children] at hc)]
        refine AllN.node ?_ ?_
        · intro _
          rw [show (PNode.mk nm t rp sz (some []) false).childrenL = [] from rfl]
          exact List.sorted_nil
        · intro c hc
          simp [PNode.childrenL, PNode.children] at hc
      | cons c cs =>
        rw [finalizeLocal_eq_conv]
        refine AllN.node ?_ ?_
        · intro _
          rw [show (PNode.mk nm t rp sz
              (some (List.insertionSort NodeLE (finalizeL (c :: cs)))) true).childrenL =
              List.insertionSort NodeLE (finalizeL (c :: cs)) from rfl]
          exact List.sorted_insertionSort NodeLE _
        · intro x hx
          rw [show (PNode.mk nm t rp sz
              (some (List.insertionSort NodeLE (finalizeL (c :: cs)))) true).childrenL =
              List.insertionSort NodeLE (finalizeL (c :: cs)) from rfl] at hx
          rw [List.mem_insertionSort, finalizeL_eq_map, List.mem_map] at hx
          obtain ⟨c', hc', rfl⟩ := hx
          have hmem : c' ∈ (PNode.mk nm t rp sz (some (c :: cs)) false).childrenL := by
            rw [show (PNode.mk nm t rp sz (some (c :: cs)) false).childrenL =
              c :: cs from rfl]
            exact hc'
          exact ihc c' hmem (hdict.child hmem)

/-- The `build_tree_from_list` finalize sorts every children dict of a
construction-phase tree. -/
theorem finalizeList_sorted :
    ∀ t : PNode, AllN DictForm t → AllN SortedChildren (finalizeList t) := by
  refine PNode.inductionOn
    (fun t => AllN DictForm t → AllN SortedChildren (finalizeList t)) ?_
  intro n ihc hdict
  cases n with
  | mk nm t rp sz ch il =>
    have hfl : il = false := hdict.self
    subst hfl
    cases ch with
    | none =>
      rw [finalizeList_eq_skip _ (by intro cs hc; simp [PNode.children] at hc)]
      refine AllN.node ?_ ?_
      · intro _
        rw [show (PNode.mk nm t rp sz none false).childrenL = [] from rfl]
        exact List.sorted_nil
      · intro c hc
        simp [PNode.childrenL, PNode.children] at hc
    | some l =>
      rw [finalizeList_eq_conv]
      refine AllN.node ?_ ?_
      · intro _
        rw [show (PNode.mk nm t rp sz
            (some (List.insertionSort NodeLE (finalizeLL l))) true).childrenL =
            List.insertionSort NodeLE (finalizeLL l) from rfl]
        exact List.sorted_insertionSort NodeLE _
      · intro x hx
        rw [show (PNode.mk nm t rp sz
            (some (List.insertionSort NodeLE (finalizeLL l))) true).childrenL =
            List.insertionSort NodeLE (finalizeLL l) from rfl] at hx
        rw [List.mem_insertionSort, finalizeLL_eq_map, List.mem_map] at hx
        obtain ⟨c', hc', rfl⟩ := hx
        have hmem : c' ∈ (PNode.mk nm t rp sz (some l) false).childrenL := by
          rw [show (PNode.mk nm t rp sz (some l) false).childrenL = l from rfl]
          exact hc'
        exact ihc c' hmem (hdict.child hmem)

/-- C5: after finalization, in every Directory node of the built tree — in
both variants — the children sequence is sorted by the Python sort key
`(type != 'dir', name.lower())` under tuple `<=` (the relation `NodeLE`):
pairwise, no File child ever precedes a Directory child, and within the
directory group and the file group the lower-cased names ascend. -/
theorem children_sorted_after_finalize :
    (∀ (fs : LocalFS) (exclude_globs : List String),
       AllN SortedChildren (build_tree fs exclude_globs)) ∧
    (∀ (flat_items : List SvnItem) (exclude_globs : List String),
       AllN SortedChildren (build_tree_from_list flat_items exclude_globs)) := by
  constructor
  · intro fs exclude_globs
    unfold build_tree
    exact finalizeLocal_sorted _ (build_tree_fold_dictForm _)
  · intro flat_items exclude_globs
    unfold build_tree_from_list
    exact finalizeList_sorted _ (build_tree_from_list_fold_dictForm _)
